import Mathlib

/-!
Shallow embedding of the dwv `UrlsLoader` (io/urlsLoader.js) together with the
part of `JSONTextLoader` (io/jsonTextLoader.js) that the claims are about.

The `UrlsLoader` drives a batch of XMLHttpRequests with a bounded dispatch
window, feeds each successful response to a content loader (decoder) selected
once per batch, and aggregates the per-item fetch/decode terminations into the
lifecycle callbacks onloadstart / onloaditem / onload / onloadend / onerror /
onabort.  The embedding models:
  * the per-invocation instance state (`#nLoad`, `#nLoadend`, `#aborting`,
    the stored requests and the stored loader) as the structure `St`;
  * each stored XMLHttpRequest together with its decode task as a `Phase`
    (request created, request sent, decode running, terminal states);
  * the asynchronous completions that the browser event loop can deliver as
    `Act`, with `stepA` the handler the source installs for each of them;
  * the lifecycle callbacks that fire as a trace of `Ev` values returned next
    to the state (the source callbacks are write-only: no handler inspects
    past events, so the trace can live outside the state).
A decode is modelled as fully asynchronous (the decoder finishes strictly
after the request loadend handler has run); a synchronous decoder such as
JSONTextLoader interleaves the same callback calls in a different order inside
one task, which moves events between adjacent positions of the trace but does
not change any of the counter bookkeeping the claims are about.
-/

namespace Dwv

/-- Lifecycle state of one stored request/decode pair of the batch.
`unsent`: XMLHttpRequest created by the construction loop, `send` not called;
`sent`: in flight; `decoding`: request finished with success status and the
payload was handed to the loader; `doneOk`/`doneDecodeErr`: decode finished;
`doneStatusErr`: request finished with a non-success status (error branch);
`endedNetErr`: request failed at network level; `endedAbort`: request was
aborted in flight; `decodeAborted`: running decode stopped by loader.abort. -/
inductive Phase
  | unsent
  | sent
  | decoding
  | doneOk
  | doneDecodeErr
  | doneStatusErr
  | endedNetErr
  | endedAbort
  | decodeAborted
deriving DecidableEq, Repr

/-- Lifecycle events emitted through the UrlsLoader public callbacks. -/
inductive Ev
  | start (source : List String)
  | loaditem (index : Nat)
  | load
  | loadend
  | error (msg : String)
  | abortEvt (index : Nat)
  | abortOther
deriving DecidableEq, Repr

/-- One request header, as in options.requestHeaders. -/
structure Header where
  name : String
  value : String
deriving DecidableEq, Repr

/-- Recognized load options of UrlsLoader.load. -/
structure Options where
  requestHeaders : Option (List Header) := none
  withCredentials : Option Bool := none
  batchSize : Option Nat := none

/-- The capability surface of a registered loader that UrlsLoader consults.
Only canLoadUrl has observable effect in the model: setOptions stores sizes
the model does not read, loadUrlAs only selects the XHR responseType, and the
onloaditem wiring branch emits the same per-item events either way. -/
structure LoaderSpec where
  canLoadUrl : String → Option Options → Bool

/-- Per-invocation instance state of UrlsLoader: the private fields
`#inputData.length` (n), `#nLoad`, `#nLoadend`, `#aborting`, the stored
requests with their decode tasks (phases), the local lastRunRequestIndex
captured by the requestOnLoadEnd closure, whether a loader is stored
(`#runningLoader` non-null) and whether its abort() has been called. -/
structure St where
  n : Nat
  nLoad : Nat
  nLoadend : Nat
  aborting : Bool
  phases : List Phase
  lastRun : Nat
  hasLoader : Bool
  loaderAborted : Bool
deriving DecidableEq, Repr

/-- A pristine UrlsLoader instance: no input stored, no requests, no loader.
The source leaves `#aborting` undefined before the first load; undefined is
falsy everywhere it is read, so it is modelled as false. -/
def freshSt : St :=
  { n := 0, nLoad := 0, nLoadend := 0, aborting := false, phases := []
    lastRun := 0, hasLoader := false, loaderAborted := false }

/-- Asynchronous completions the environment can deliver to the handlers the
source installed: a request finishing with an HTTP status (onload+onloadend),
a network-level failure (onerror+onloadend), a decode finishing, and a user
call to UrlsLoader.abort. -/
inductive Act
  | fetchDone (i status : Nat) (responseURL statusText : String)
  | fetchNetErr (i : Nat)
  | decodeDone (i : Nat) (ok : Bool)
  | abortCall
deriving DecidableEq, Repr

/-- Number of phases equal to a given phase. -/
def countPh (t : Phase) : List Phase → Nat
  | [] => 0
  | p :: ps => (if p = t then 1 else 0) + countPh t ps

/-- Number of occurrences of an event in a trace. -/
def countEv (e : Ev) : List Ev → Nat
  | [] => 0
  | x :: xs => (if x = e then 1 else 0) + countEv e xs

/-- How many of the `2 * n` load-end halves an item in this phase has already
contributed to `#nLoadend`: one for its request onloadend, one for its decode
onloadend — a non-success status contributes its second half in the error
branch of the request onload handler instead of a decode. -/
def contrib : Phase → Nat
  | .unsent => 0
  | .sent => 0
  | .decoding => 1
  | .doneOk => 2
  | .doneDecodeErr => 2
  | .doneStatusErr => 2
  | .endedNetErr => 1
  | .endedAbort => 1
  | .decodeAborted => 1

/-- Total number of load-end halves contributed by the batch so far. -/
def contribSum : List Phase → Nat
  | [] => 0
  | p :: ps => contrib p + contribSum ps

/-- Replace the phase of request i (list update, no-op when out of range). -/
def setPhase (i : Nat) (p : Phase) (s : St) : St :=
  { s with phases := s.phases.set i p }

/-- Source `#addLoad`: increment `#nLoad` and fire onload when all data is
loaded (`#nLoad === this.#inputData.length`). -/
def addLoad (s : St) : St × List Ev :=
  ({ s with nLoad := s.nLoad + 1 },
   if s.nLoad + 1 = s.n then [Ev.load] else [])

/-- Source `#addLoadend`: increment `#nLoadend` and fire onloadend when all is
run (`#nLoadend === 2 * this.#inputData.length`, x2 to count request + load). -/
def addLoadend (s : St) : St × List Ev :=
  ({ s with nLoadend := s.nLoadend + 1 },
   if s.nLoadend + 1 = 2 * s.n then [Ev.loadend] else [])

/-- Source `requestOnLoadEnd` closure: one `#addLoadend`, then launch the next
request in the queue when `lastRunRequestIndex < this.#requests.length - 1`
and the load is not aborting. -/
def requestOnLoadEnd (s : St) : St × List Ev :=
  let s1 := (addLoadend s).1
  (if s1.lastRun < s1.phases.length - 1 && !s1.aborting then
     setPhase (s1.lastRun + 1) .sent { s1 with lastRun := s1.lastRun + 1 }
   else s1,
   (addLoadend s).2)

/-- Source `getLoadHandler` (request onload): status 200 or 0 hands the
response to `loader.load(event.target.response, dataElement, i)`; any other
status fires onerror with the GET/status/statusText message followed by one
`#addLoadend`, and the loader is not invoked. -/
def getLoadHandler (i status : Nat) (responseURL statusText : String) (s : St) :
    St × List Ev :=
  if status ≠ 200 ∧ status ≠ 0 then
    let msg := "GET " ++ responseURL ++ " " ++ toString status ++
      " (" ++ statusText ++ ")"
    let t := addLoadend (setPhase i .doneStatusErr s)
    (t.1, Ev.error msg :: t.2)
  else
    (setPhase i .decoding s, [])

/-- XMLHttpRequest readyState of a stored request in the given phase: 1
(OPENED) before send, in-flight below 4, 4 (DONE) once the HTTP transaction
finished, and 0 (UNSENT) after an abort reset the request. -/
def readyState : Phase → Nat
  | .unsent => 1
  | .sent => 3
  | .decoding => 4
  | .doneOk => 4
  | .doneDecodeErr => 4
  | .doneStatusErr => 4
  | .endedNetErr => 4
  | .endedAbort => 0
  | .decodeAborted => 4

/-- Effect of calling xhr.abort() on stored request i: an in-flight request
synchronously fires its onabort (wired through `#augmentCallbackEvent` to
this.onabort) and then its onloadend (`requestOnLoadEnd`); on a request that
was never sent or was already aborted the call is a no-op. -/
def reqAbort (i : Nat) (s : St) : St × List Ev :=
  match s.phases[i]? with
  | some .sent =>
    let t := requestOnLoadEnd (setPhase i .endedAbort s)
    (t.1, Ev.abortEvt i :: t.2)
  | _ => (s, [])

/-- One iteration of the abort loop of UrlsLoader.abort: call xhr.abort() on
request i when its readyState is not 4 (DONE). -/
def reqAbortIfActive (i : Nat) (s : St) : St × List Ev :=
  match s.phases[i]? with
  | some p => if readyState p ≠ 4 then reqAbort i s else (s, [])
  | none => (s, [])

/-- The abort loop of UrlsLoader.abort over the stored request indices. -/
def abortList (s : St) : List Nat → St × List Ev
  | [] => (s, [])
  | i :: is =>
    let t1 := reqAbortIfActive i s
    let t2 := abortList t1.1 is
    (t2.1, t1.2 ++ t2.2)

/-- Number of decodes currently running. -/
def countDecoding (ps : List Phase) : Nat := countPh .decoding ps

/-- The stored loader's isLoading(): a decode is in progress. -/
def isLoading (s : St) : Bool := decide (0 < countDecoding s.phases)

/-- Effect of loader.abort(): the loader stops its running decodes, fires its
onabort (wired to this.onabort) and one onloadend (wired to `#addLoadend`),
as JSONTextLoader.abort does. -/
def loaderAbort (s : St) : St × List Ev :=
  let s1 : St := { s with
    phases := s.phases.map (fun p => if p = .decoding then .decodeAborted else p)
    loaderAborted := true }
  ((addLoadend s1).1, Ev.abortOther :: (addLoadend s1).2)

/-- Source UrlsLoader.abort: set `#aborting`, call abort() on every stored
request whose readyState is not DONE, then abort the stored loader when it is
present and reports isLoading(). -/
def abortFun (s : St) : St × List Ev :=
  let s1 : St := { s with aborting := true }
  let t2 := abortList s1 (List.range s1.phases.length)
  if t2.1.hasLoader && isLoading t2.1 then
    (( loaderAbort t2.1).1, t2.2 ++ (loaderAbort t2.1).2)
  else t2

/-- Dispatch of one asynchronous completion to the handler the source
installed for it.  `none` means the completion is not deliverable in this
state (no such request in flight / no such decode running).  For a request
that finishes, the browser fires onload (or onerror) and then onloadend
within one task, so both handlers run in one step.  A decode that finishes
fires the loader's onload (wired to `#addLoadItem` resp. `#addLoad` next to
onloaditem — both wirings emit one onloaditem and one `#addLoad`) or its
onerror (wired to this.onerror), followed by the loader's onloadend (wired
to `#addLoadend`). -/
def stepA (a : Act) (s : St) : Option (St × List Ev) :=
  match a with
  | .fetchDone i status ru stx =>
    match s.phases[i]? with
    | some .sent =>
      let t1 := getLoadHandler i status ru stx s
      let t2 := requestOnLoadEnd t1.1
      some (t2.1, t1.2 ++ t2.2)
    | _ => none
  | .fetchNetErr i =>
    match s.phases[i]? with
    | some .sent =>
      let t1 := requestOnLoadEnd (setPhase i .endedNetErr s)
      some (t1.1, Ev.error "network error" :: t1.2)
    | _ => none
  | .decodeDone i ok =>
    match s.phases[i]? with
    | some .decoding =>
      if ok then
        let t1 := addLoad s
        let t2 := addLoadend t1.1
        some (setPhase i .doneOk t2.1, Ev.loaditem i :: (t1.2 ++ t2.2))
      else
        let t1 := addLoadend s
        some (setPhase i .doneDecodeErr t1.1, Ev.error "decode error" :: t1.2)
    | _ => none
  | .abortCall => some (abortFun s)

/-- Run a schedule of completions, accumulating the emitted trace. -/
def run (s : St) (tr : List Ev) : List Act → Option (St × List Ev)
  | [] => some (s, tr)
  | a :: rest =>
    match stepA a s with
    | some (s1, e1) => run s1 (tr ++ e1) rest
    | none => none

/-- A schedule that never calls UrlsLoader.abort. -/
def noAbort : List Act → Bool
  | [] => true
  | a :: rest =>
    (match a with
     | .abortCall => false
     | _ => true) && noAbort rest

/-- Every item of the batch reached both its fetch conclusion and its decode
conclusion (where a non-success status counts as both, via the error branch). -/
def allConcluded (ps : List Phase) : Bool :=
  ps.all (fun p => p = .doneOk ∨ p = .doneDecodeErr ∨ p = .doneStatusErr)

/-- Source loader-selection loop: the first registered loader whose
canLoadUrl accepts the first data element wins for the whole batch. -/
def findLoader (loaders : List LoaderSpec) (url : String)
    (opts : Option Options) : Option LoaderSpec :=
  loaders.find? (fun l => l.canLoadUrl url opts)

/-- Source request-construction loop: for each url, check the selected loader
accepts it (otherwise throw) and create+store an XMLHttpRequest (phase
unsent).  `acc` is the list of requests stored so far; a throw reports the
offending url and leaves the partially stored requests behind. -/
def buildRequestsAux (loader : LoaderSpec) (opts : Option Options) :
    List String → List Phase → Except (String × List Phase) (List Phase)
  | [], acc => .ok acc
  | u :: us, acc =>
    if loader.canLoadUrl u opts then
      buildRequestsAux loader opts us (acc ++ [Phase.unsent])
    else
      .error ("Input url of different type: " ++ u, acc)

/-- Source batch-size computation: defaults to the number of stored requests;
an options.batchSize caps it at min(options.batchSize, requests.length) when
there is at least one request. -/
def computeBatchSize (reqCount : Nat) (opts : Option Options) : Nat :=
  match opts with
  | none => reqCount
  | some o =>
    match o.batchSize with
    | none => reqCount
    | some b => if reqCount ≠ 0 then min b reqCount else reqCount

/-- Source initial dispatch loop body over the given indices: when not
aborting, record the index in lastRunRequestIndex and send the request. -/
def dispatchList (s : St) : List Nat → St
  | [] => s
  | r :: rs =>
    dispatchList (if !s.aborting then setPhase r .sent { s with lastRun := r } else s) rs

/-- Source initial dispatch loop: `for (let r = 0; r < batchSize; ++r)`. -/
def dispatchLoop (k : Nat) (s : St) : St := dispatchList s (List.range k)

/-- Source `#loadUrls`: silently return on undefined or empty input; store the
input (resetting counters, the aborting flag, the stored requests and
loader); select a loader for the first element or throw; build and store one
request per url, throwing on a url the selected loader rejects; then send the
first batchSize requests.  Throws carry the instance state at the throw.
The incoming state is only relevant for the silent-return case: on the
non-empty path `#storeInputData` resets every field the model tracks. -/
def loadUrls (loaders : List LoaderSpec) (s : St) (data : Option (List String))
    (opts : Option Options) : Except (String × St) St :=
  match data with
  | none => .ok s
  | some [] => .ok s
  | some (d0 :: ds) =>
    let st0 : St := { n := (d0 :: ds).length, nLoad := 0, nLoadend := 0
                      aborting := false, phases := [], lastRun := 0
                      hasLoader := false, loaderAborted := false }
    match findLoader loaders d0 opts with
    | none => .error ("No loader found for url: " ++ d0, st0)
    | some loader =>
      let st1 : St := { st0 with hasLoader := true }
      match buildRequestsAux loader opts (d0 :: ds) [] with
      | .error (msg, built) => .error (msg, { st1 with phases := built })
      | .ok phases =>
        let st2 : St := { st1 with phases := phases }
        .ok (dispatchLoop (computeBatchSize phases.length opts) st2)

/-- Check that `search` is a prefix of the character list. -/
def prefixCheck : List Char → List Char → Bool
  | [], _ => true
  | _ :: _, [] => false
  | a :: as, b :: bs => a = b && prefixCheck as bs

/-- Modelled from the spec: utils/string startsWith is missing from src; it
checks that str begins with search (str.substring(0, search.length) ===
search). -/
def startsWith (str search : String) : Bool :=
  prefixCheck search.data str.data

/-- Modelled from the spec: utils/string endsWith is missing from src; it
checks that str ends with search. -/
def endsWith (str search : String) : Bool :=
  prefixCheck search.data.reverse str.data.reverse

/-- Modelled from the spec: utils/string getRootPath is missing from src; the
directory of a path, i.e. everything before the last '/'. -/
def getRootPath (path : String) : String :=
  String.mk (((path.data.reverse.dropWhile (fun c => c ≠ '/')).drop
    1).reverse)

/-- Modelled from the spec: utils/string getFileExtension is missing from
src; the lowercased text after the last dot, none when there is no dot. -/
def getFileExtension (filePath : String) : Option String :=
  let parts := filePath.toLower.splitOn "."
  if parts.length ≤ 1 then none else some (parts.getLastD "")

/-- The pathname part of a parsed url, as returned by getUrlFromUri. -/
structure UrlParts where
  pathname : String

/-- Modelled from the spec: utils/uri getUrlFromUri is missing from src; of
the parsed url only the pathname is consulted, modelled as the text before
any query string. -/
def getUrlFromUri (uri : String) : UrlParts :=
  { pathname := (uri.splitOn "?").headD uri }

/-- Source JSONTextLoader.canLoadUrl header predicate isJson: an Accept
header whose value starts with both the json and the dicom+json media type. -/
def jsonHeaderPred (element : Header) : Bool :=
  element.name = "Accept" &&
    startsWith element.value "application/json" &&
    startsWith element.value "application/dicom+json"

namespace JSONTextLoader

/-- Source JSONTextLoader.canLoadUrl: when options.requestHeaders is defined
the check is based on them alone (find an Accept header matching
`jsonHeaderPred`); otherwise fall back to the url extension. -/
def canLoadUrl (url : String) (options : Option Dwv.Options) : Bool :=
  match options with
  | some opts =>
    match opts.requestHeaders with
    | some hs => (hs.find? jsonHeaderPred).isSome
    | none =>
      (getFileExtension (getUrlFromUri url).pathname) = some "json"
  | none =>
    (getFileExtension (getUrlFromUri url).pathname) = some "json"

end JSONTextLoader

/-- Source DICOMDIR detection applied to one url. -/
def isDicomDirUrl (url : String) : Bool :=
  endsWith url "DICOMDIR" || endsWith url ".dcmdir"

/-- The parsed content of a DICOMDIR manifest: its file groups. -/
abbrev ManifestContent := List (List (List String))

/-- Modelled from the spec: dicom/dicomElementsWrapper getFileListFromDicomDir
is missing from src; the manifest decode is an external collaborator, so the
model takes the already-parsed file groups as the manifest response. -/
def getFileListFromDicomDir (response : ManifestContent) :
    List (List (List String)) := response

/-- Outcome of the manifest fetch issued by `#loadDicomDir`, chosen by the
environment: an HTTP completion with a status and parsed response, a
network-level error, or an abort. -/
inductive DicomDirFetch
  | done (status : Nat) (responseURL statusText : String)
      (response : ManifestContent)
  | netErr
  | aborted

/-- Source `#loadDicomDir`: fetch the DICOMDIR as arraybuffer; on non-success
status fire onerror (GET/status/statusText) and onloadend directly; on
success expand to the first file group of the parsed list, qualify each entry
against the root path of the manifest url, and re-enter `#loadUrls` with the
expanded list and the same options; network errors and aborts fire the
corresponding callback plus onloadend. -/
def loadDicomDir (loaders : List LoaderSpec) (s : St) (dicomDirUrl : String)
    (opts : Option Options) (outcome : DicomDirFetch) :
    Except (String × St) (St × List Ev) :=
  match outcome with
  | .done status responseURL statusText response =>
    if status ≠ 200 ∧ status ≠ 0 then
      .ok (s, [Ev.error ("GET " ++ responseURL ++ " " ++ toString status ++
        " (" ++ statusText ++ ")"), Ev.loadend])
    else
      let list := getFileListFromDicomDir response
      let urls := (list.getD 0 []).getD 0 []
      let rootUrl := getRootPath dicomDirUrl
      let fullUrls := urls.map (fun u => rootUrl ++ "/" ++ u)
      match loadUrls loaders s (some fullUrls) opts with
      | .ok t => .ok (t, [])
      | .error e => .error e
  | .netErr => .ok (s, [Ev.error "network error", Ev.loadend])
  | .aborted => .ok (s, [Ev.abortOther, Ev.loadend])

/-- Source UrlsLoader.load: fire onloadstart (during which the user callback
may call abort(), modelled by abortInStart), then either the DICOMDIR path
(batch of exactly one element matching the manifest naming convention) or the
direct `#loadUrls` path. -/
def load (loaders : List LoaderSpec) (s : St) (data : List String)
    (opts : Option Options) (abortInStart : Bool) (dd : DicomDirFetch) :
    Except (String × St) (St × List Ev) :=
  let tr0 : List Ev := [Ev.start data]
  let s2 := if abortInStart then (abortFun s).1 else s
  let tr1 := if abortInStart then tr0 ++ (abortFun s).2 else tr0
  if data.length == 1 && isDicomDirUrl (data.getD 0 "") then
    match loadDicomDir loaders s2 (data.getD 0 "") opts dd with
    | .ok (t, e) => .ok (t, tr1 ++ e)
    | .error e => .error e
  else
    match loadUrls loaders s2 (some data) opts with
    | .ok t => .ok (t, tr1)
    | .error e => .error e

/-- A demo loader accepting every url (used by concrete witnesses). -/
def demoLoaderAll : LoaderSpec := { canLoadUrl := fun _ _ => true }

/-- A demo loader accepting only the url "a" (used by counterexamples). -/
def demoLoaderA : LoaderSpec := { canLoadUrl := fun u _ => u == "a" }

/-- A demo state with one in-flight and one unsent request (used by
concrete witnesses). -/
def demoAbortSt : St :=
  { n := 2, nLoad := 0, nLoadend := 0, aborting := false
    phases := [Phase.sent, Phase.unsent], lastRun := 0, hasLoader := true
    loaderAborted := false }

/-- Invariant of abort-free executions started by a successful non-empty
`loadUrls`: the counters mirror the per-item load-end contributions and the
decode successes, each aggregated callback in the trace was emitted exactly
when its counter reached its threshold, and every request past
lastRunRequestIndex is still unsent. -/
structure Inv (s : St) (tr : List Ev) : Prop where
  hn : 1 ≤ s.n
  hlen : s.phases.length = s.n
  hab : s.aborting = false
  hsum : s.nLoadend = contribSum s.phases
  hload : s.nLoad = countPh .doneOk s.phases
  hend : countEv .loadend tr = if 2 * s.n ≤ s.nLoadend then 1 else 0
  hld : countEv .load tr = if s.n ≤ s.nLoad then 1 else 0
  hlast : s.lastRun < s.n
  hafter : ∀ i, s.lastRun < i → i < s.n → s.phases[i]? = some .unsent

/-- Sliding-window invariant for a concurrency bound k: at most k requests in
flight, and no request at or below lastRunRequestIndex is still unsent (so
the next unsent request is exactly lastRunRequestIndex + 1). -/
structure InvW (k : Nat) (s : St) : Prop where
  hcnt : countPh .sent s.phases ≤ k
  hwin : ∀ i, i ≤ s.lastRun → i < s.n → s.phases[i]? ≠ some .unsent

/-! ### Generic counting lemmas -/

theorem countPh_append (t : Phase) (l1 l2 : List Phase) :
    countPh t (l1 ++ l2) = countPh t l1 + countPh t l2 := by
  induction l1 with
  | nil => simp [countPh]
  | cons p ps ih =>
    simp only [List.cons_append, countPh, List.append_eq, ih]
    omega

theorem countEv_append (e : Ev) (l1 l2 : List Ev) :
    countEv e (l1 ++ l2) = countEv e l1 + countEv e l2 := by
  induction l1 with
  | nil => simp [countEv]
  | cons p ps ih =>
    simp only [List.cons_append, countEv, List.append_eq, ih]
    omega

theorem countPh_le_length (t : Phase) (l : List Phase) : countPh t l ≤ l.length := by
  induction l with
  | nil => simp [countPh]
  | cons p ps ih =>
    simp only [countPh, List.length_cons]
    split <;> omega

theorem countPh_eq_length (t : Phase) (l : List Phase)
    (h : countPh t l = l.length) : ∀ p ∈ l, p = t := by
  induction l with
  | nil => simp
  | cons p ps ih =>
    simp only [countPh, List.length_cons] at h
    have hle := countPh_le_length t ps
    intro q hq
    rcases List.mem_cons.mp hq with hq | hq
    · subst hq
      by_contra hne
      simp only [if_neg hne] at h
      omega
    · refine ih ?_ q hq
      split at h <;> omega

theorem countPh_replicate (t p : Phase) (k : Nat) :
    countPh t (List.replicate k p) = if p = t then k else 0 := by
  induction k with
  | zero => simp [countPh]
  | succ k ih =>
    simp only [List.replicate_succ, countPh, ih]
    split <;> omega

theorem contribSum_append (l1 l2 : List Phase) :
    contribSum (l1 ++ l2) = contribSum l1 + contribSum l2 := by
  induction l1 with
  | nil => simp [contribSum]
  | cons p ps ih =>
    simp only [List.cons_append, contribSum, List.append_eq, ih]
    omega

theorem contribSum_replicate (p : Phase) (k : Nat) :
    contribSum (List.replicate k p) = k * contrib p := by
  induction k with
  | zero => simp [contribSum]
  | succ k ih =>
    simp only [List.replicate_succ, contribSum, ih]
    ring

theorem getQ_set_eq {α : Type} (l : List α) (i : Nat) (a : α) (h : i < l.length) :
    (l.set i a)[i]? = some a := by
  induction l generalizing i with
  | nil => simp at h
  | cons x xs ih =>
    cases i with
    | zero => simp
    | succ j =>
      simp only [List.set_cons_succ, List.getElem?_cons_succ]
      exact ih j (by simpa using h)

theorem getQ_set_ne {α : Type} (l : List α) (i j : Nat) (a : α) (h : i ≠ j) :
    (l.set i a)[j]? = l[j]? := by
  induction l generalizing i j with
  | nil => simp
  | cons x xs ih =>
    cases i with
    | zero =>
      cases j with
      | zero => exact absurd rfl h
      | succ k => simp
    | succ i1 =>
      cases j with
      | zero => simp
      | succ k =>
        simp only [List.set_cons_succ, List.getElem?_cons_succ]
        exact ih i1 k (by omega)

theorem countPh_set (t : Phase) (l : List Phase) (i : Nat) (p old : Phase)
    (h : l[i]? = some old) :
    countPh t (l.set i p) + (if old = t then 1 else 0) =
      countPh t l + (if p = t then 1 else 0) := by
  induction l generalizing i with
  | nil => simp at h
  | cons x xs ih =>
    cases i with
    | zero =>
      simp only [List.getElem?_cons_zero, Option.some.injEq] at h
      subst h
      simp only [List.set_cons_zero, countPh]
      omega
    | succ j =>
      simp only [List.getElem?_cons_succ] at h
      simp only [List.set_cons_succ, countPh]
      have := ih j h
      omega

theorem contribSum_set (l : List Phase) (i : Nat) (p old : Phase)
    (h : l[i]? = some old) :
    contribSum (l.set i p) + contrib old = contribSum l + contrib p := by
  induction l generalizing i with
  | nil => simp at h
  | cons x xs ih =>
    cases i with
    | zero =>
      simp only [List.getElem?_cons_zero, Option.some.injEq] at h
      subst h
      simp only [List.set_cons_zero, contribSum]
      omega
    | succ j =>
      simp only [List.getElem?_cons_succ] at h
      simp only [List.set_cons_succ, contribSum]
      have := ih j h
      omega

theorem getQ_replicate {α : Type} (a : α) (m i : Nat) :
    (List.replicate m a)[i]? = if i < m then some a else none := by
  induction m generalizing i with
  | zero => simp
  | succ m ih =>
    cases i with
    | zero => simp
    | succ j =>
      simp only [List.replicate_succ, List.getElem?_cons_succ, ih]
      split_ifs <;> first | rfl | omega

theorem getQ_rep_append {α : Type} (a b : α) (k m i : Nat) :
    (List.replicate k a ++ List.replicate m b)[i]? =
      if i < k then some a else if i < k + m then some b else none := by
  induction k generalizing i with
  | zero => simp [getQ_replicate]
  | succ k ih =>
    cases i with
    | zero => simp [List.replicate_succ]
    | succ j =>
      simp only [List.replicate_succ, List.cons_append, List.getElem?_cons_succ, ih]
      split_ifs <;> first | rfl | omega

/-! ### Characterizations of the composite handlers -/

theorem getQ_lt_length {α : Type} {l : List α} {i : Nat} {a : α}
    (h : l[i]? = some a) : i < l.length := by
  by_contra hge
  rw [List.getElem?_eq_none (by omega)] at h
  cases h

theorem countEv_loadend_ite (c : Prop) [Decidable c] :
    countEv .loadend (if c then [Ev.loadend] else []) = if c then 1 else 0 := by
  split <;> simp [countEv]

theorem countEv_load_ite (c : Prop) [Decidable c] :
    countEv .load (if c then [Ev.load] else []) = if c then 1 else 0 := by
  split <;> simp [countEv]

theorem countEv_ne_ite (e x : Ev) (h : x ≠ e) (c : Prop) [Decidable c] :
    countEv e (if c then [x] else []) = 0 := by
  split <;> simp [countEv, h]

theorem getLoadHandler_bad (i status : Nat) (ru stx : String) (s : St)
    (hbad : status ≠ 200 ∧ status ≠ 0) :
    getLoadHandler i status ru stx s =
      ({ s with
          phases := s.phases.set i .doneStatusErr
          nLoadend := s.nLoadend + 1 },
       Ev.error ("GET " ++ ru ++ " " ++ toString status ++ " (" ++ stx ++ ")") ::
         (if s.nLoadend + 1 = 2 * s.n then [Ev.loadend] else [])) := by
  simp only [getLoadHandler, addLoadend, setPhase, if_pos hbad]

theorem getLoadHandler_ok (i status : Nat) (ru stx : String) (s : St)
    (hok : ¬(status ≠ 200 ∧ status ≠ 0)) :
    getLoadHandler i status ru stx s = (setPhase i .decoding s, []) := by
  simp only [getLoadHandler, if_neg hok]

theorem requestOnLoadEnd_dispatch (s : St)
    (h1 : s.lastRun < s.phases.length - 1) (h2 : s.aborting = false) :
    requestOnLoadEnd s =
      ({ s with
          nLoadend := s.nLoadend + 1
          lastRun := s.lastRun + 1
          phases := s.phases.set (s.lastRun + 1) .sent },
       if s.nLoadend + 1 = 2 * s.n then [Ev.loadend] else []) := by
  simp only [requestOnLoadEnd, addLoadend, setPhase]
  rw [if_pos (by simp [h1, h2])]

theorem requestOnLoadEnd_stay (s : St)
    (h : (decide (s.lastRun < s.phases.length - 1) && !s.aborting) = false) :
    requestOnLoadEnd s =
      ({ s with nLoadend := s.nLoadend + 1 },
       if s.nLoadend + 1 = 2 * s.n then [Ev.loadend] else []) := by
  simp only [requestOnLoadEnd, addLoadend, setPhase]
  rw [if_neg (by simp [h])]

/-! ### Trace-counting helpers for the handler steps -/

theorem hend_two (n c : Nat) (tr : List Ev) (msg : String)
    (h : countEv .loadend tr = if 2 * n ≤ c then 1 else 0) :
    countEv .loadend (tr ++ ((Ev.error msg ::
        (if c + 1 = 2 * n then [Ev.loadend] else [])) ++
        (if c + 1 + 1 = 2 * n then [Ev.loadend] else []))) =
      if 2 * n ≤ c + 1 + 1 then 1 else 0 := by
  rw [countEv_append, countEv_append]
  simp only [countEv, countEv_loadend_ite, h]
  simp
  split_ifs <;> omega

theorem hend_one (n c : Nat) (tr : List Ev)
    (h : countEv .loadend tr = if 2 * n ≤ c then 1 else 0) :
    countEv .loadend (tr ++ ([] ++
        (if c + 1 = 2 * n then [Ev.loadend] else []))) =
      if 2 * n ≤ c + 1 then 1 else 0 := by
  rw [countEv_append, countEv_append]
  simp only [countEv, countEv_loadend_ite, h]
  split_ifs <;> omega

theorem hend_cons_one (n c : Nat) (tr : List Ev) (x : Ev)
    (hx : (x = Ev.loadend) = False)
    (h : countEv .loadend tr = if 2 * n ≤ c then 1 else 0) :
    countEv .loadend (tr ++ (x ::
        (if c + 1 = 2 * n then [Ev.loadend] else []))) =
      if 2 * n ≤ c + 1 then 1 else 0 := by
  rw [countEv_append]
  simp only [countEv, countEv_loadend_ite, h, hx, if_false]
  split_ifs <;> omega

theorem hend_decodeOk (n cL c : Nat) (tr : List Ev) (i : Nat)
    (h : countEv .loadend tr = if 2 * n ≤ c then 1 else 0) :
    countEv .loadend (tr ++ (Ev.loaditem i ::
        ((if cL + 1 = n then [Ev.load] else []) ++
         (if c + 1 = 2 * n then [Ev.loadend] else [])))) =
      if 2 * n ≤ c + 1 then 1 else 0 := by
  rw [countEv_append]
  simp only [countEv, countEv_append, countEv_loadend_ite,
    countEv_ne_ite .loadend Ev.load (by simp), h]
  simp
  split_ifs <;> omega

theorem hld_keep (n cL : Nat) (tr δ : List Ev)
    (h : countEv .load tr = if n ≤ cL then 1 else 0)
    (h0 : countEv .load δ = 0) :
    countEv .load (tr ++ δ) = if n ≤ cL then 1 else 0 := by
  rw [countEv_append, h, h0]
  omega

theorem hld_decodeOk (n cL c : Nat) (tr : List Ev) (i : Nat)
    (h : countEv .load tr = if n ≤ cL then 1 else 0) :
    countEv .load (tr ++ (Ev.loaditem i ::
        ((if cL + 1 = n then [Ev.load] else []) ++
         (if c + 1 = 2 * n then [Ev.loadend] else [])))) =
      if n ≤ cL + 1 then 1 else 0 := by
  rw [countEv_append]
  simp only [countEv, countEv_append, countEv_load_ite,
    countEv_ne_ite .load Ev.loadend (by simp), h]
  simp
  split_ifs <;> omega

/-! ### Invariant preservation by the asynchronous handlers -/

theorem inv_fetchDone (i status : Nat) (ru stx : String) (s s' : St)
    (tr δ : List Ev) (hinv : Inv s tr)
    (hstep : stepA (.fetchDone i status ru stx) s = some (s', δ)) :
    Inv s' (tr ++ δ) := by
  obtain ⟨hn, hlen, hab, hsum, hload, hend, hld, hlast, hafter⟩ := hinv
  rcases hv : s.phases[i]? with _ | p
  · simp only [stepA, hv] at hstep; cases hstep
  · cases p <;> simp only [stepA, hv] at hstep <;> cases hstep
    have hiN : i < s.n := hlen ▸ getQ_lt_length hv
    have hiLast : i ≤ s.lastRun := by
      by_contra hgt
      have h2 := hafter i (by omega) hiN
      rw [hv] at h2
      simp at h2
    by_cases hbad : status ≠ 200 ∧ status ≠ 0
    · rw [getLoadHandler_bad i status ru stx s hbad]
      have e1 : contribSum (s.phases.set i .doneStatusErr) =
          contribSum s.phases + 2 := by
        have := contribSum_set s.phases i .doneStatusErr .sent hv
        simp [contrib] at this
        omega
      have l1 : countPh .doneOk (s.phases.set i .doneStatusErr) =
          countPh .doneOk s.phases := by
        have := countPh_set .doneOk s.phases i .doneStatusErr .sent hv
        simp at this
        omega
      by_cases hdisp : s.lastRun < s.n - 1
      · rw [requestOnLoadEnd_dispatch _
          (by simp [List.length_set, hlen]; omega) (by simp [hab])]
        have hun : (s.phases.set i .doneStatusErr)[s.lastRun + 1]? =
            some .unsent := by
          rw [getQ_set_ne _ _ _ _ (by omega)]
          exact hafter _ (by omega) (by omega)
        have e2 : contribSum ((s.phases.set i .doneStatusErr).set
            (s.lastRun + 1) .sent) =
            contribSum (s.phases.set i .doneStatusErr) := by
          have := contribSum_set (s.phases.set i .doneStatusErr)
            (s.lastRun + 1) .sent .unsent hun
          simp [contrib] at this
          omega
        have l2 : countPh .doneOk ((s.phases.set i .doneStatusErr).set
            (s.lastRun + 1) .sent) =
            countPh .doneOk (s.phases.set i .doneStatusErr) := by
          have := countPh_set .doneOk (s.phases.set i .doneStatusErr)
            (s.lastRun + 1) .sent .unsent hun
          simp at this
          omega
        refine ⟨hn, by simp [List.length_set, hlen], hab, by dsimp only; omega,
          by dsimp only; omega, ?_, ?_, by dsimp only; omega, ?_⟩
        · exact hend_two s.n s.nLoadend tr _ hend
        · refine hld_keep s.n s.nLoad tr _ hld ?_
          simp [countEv, countEv_append, countEv_ne_ite]
        · intro j hj1 hj2
          dsimp only at hj1 hj2 ⊢
          rw [getQ_set_ne _ _ _ _ (by omega)]
          rw [getQ_set_ne _ _ _ _ (by omega)]
          exact hafter j (by omega) (by omega)
      · rw [requestOnLoadEnd_stay _
          (by simp [List.length_set, hlen, hdisp])]
        refine ⟨hn, by simp [List.length_set, hlen], hab, by dsimp only; omega,
          by dsimp only; omega, ?_, ?_, by dsimp only; omega, ?_⟩
        · exact hend_two s.n s.nLoadend tr _ hend
        · refine hld_keep s.n s.nLoad tr _ hld ?_
          simp [countEv, countEv_append, countEv_ne_ite]
        · intro j hj1 hj2
          dsimp only at hj1 hj2 ⊢
          rw [getQ_set_ne _ _ _ _ (by omega)]
          exact hafter j (by omega) (by omega)
    · rw [getLoadHandler_ok i status ru stx s hbad, setPhase]
      have e1 : contribSum (s.phases.set i .decoding) =
          contribSum s.phases + 1 := by
        have := contribSum_set s.phases i .decoding .sent hv
        simp [contrib] at this
        omega
      have l1 : countPh .doneOk (s.phases.set i .decoding) =
          countPh .doneOk s.phases := by
        have := countPh_set .doneOk s.phases i .decoding .sent hv
        simp at this
        omega
      by_cases hdisp : s.lastRun < s.n - 1
      · rw [requestOnLoadEnd_dispatch _
          (by simp [List.length_set, hlen]; omega) (by simp [hab])]
        have hun : (s.phases.set i .decoding)[s.lastRun + 1]? =
            some .unsent := by
          rw [getQ_set_ne _ _ _ _ (by omega)]
          exact hafter _ (by omega) (by omega)
        have e2 : contribSum ((s.phases.set i .decoding).set
            (s.lastRun + 1) .sent) =
            contribSum (s.phases.set i .decoding) := by
          have := contribSum_set (s.phases.set i .decoding)
            (s.lastRun + 1) .sent .unsent hun
          simp [contrib] at this
          omega
        have l2 : countPh .doneOk ((s.phases.set i .decoding).set
            (s.lastRun + 1) .sent) =
            countPh .doneOk (s.phases.set i .decoding) := by
          have := countPh_set .doneOk (s.phases.set i .decoding)
            (s.lastRun + 1) .sent .unsent hun
          simp at this
          omega
        refine ⟨hn, by simp [List.length_set, hlen], hab, by dsimp only; omega,
          by dsimp only; omega, ?_, ?_, by dsimp only; omega, ?_⟩
        · exact hend_one s.n s.nLoadend tr hend
        · refine hld_keep s.n s.nLoad tr _ hld ?_
          simp [countEv, countEv_append, countEv_ne_ite]
        · intro j hj1 hj2
          dsimp only at hj1 hj2 ⊢
          rw [getQ_set_ne _ _ _ _ (by omega)]
          rw [getQ_set_ne _ _ _ _ (by omega)]
          exact hafter j (by omega) (by omega)
      · rw [requestOnLoadEnd_stay _
          (by simp [List.length_set, hlen, hdisp])]
        refine ⟨hn, by simp [List.length_set, hlen], hab, by dsimp only; omega,
          by dsimp only; omega, ?_, ?_, by dsimp only; omega, ?_⟩
        · exact hend_one s.n s.nLoadend tr hend
        · refine hld_keep s.n s.nLoad tr _ hld ?_
          simp [countEv, countEv_append, countEv_ne_ite]
        · intro j hj1 hj2
          dsimp only at hj1 hj2 ⊢
          rw [getQ_set_ne _ _ _ _ (by omega)]
          exact hafter j (by omega) (by omega)

theorem inv_fetchNetErr (i : Nat) (s s' : St) (tr δ : List Ev)
    (hinv : Inv s tr) (hstep : stepA (.fetchNetErr i) s = some (s', δ)) :
    Inv s' (tr ++ δ) := by
  obtain ⟨hn, hlen, hab, hsum, hload, hend, hld, hlast, hafter⟩ := hinv
  rcases hv : s.phases[i]? with _ | p
  · simp only [stepA, hv] at hstep; cases hstep
  · cases p <;> simp only [stepA, hv] at hstep <;> cases hstep
    have hiN : i < s.n := hlen ▸ getQ_lt_length hv
    have hiLast : i ≤ s.lastRun := by
      by_contra hgt
      have h2 := hafter i (by omega) hiN
      rw [hv] at h2
      simp at h2
    rw [setPhase]
    have e1 : contribSum (s.phases.set i .endedNetErr) =
        contribSum s.phases + 1 := by
      have := contribSum_set s.phases i .endedNetErr .sent hv
      simp [contrib] at this
      omega
    have l1 : countPh .doneOk (s.phases.set i .endedNetErr) =
        countPh .doneOk s.phases := by
      have := countPh_set .doneOk s.phases i .endedNetErr .sent hv
      simp at this
      omega
    by_cases hdisp : s.lastRun < s.n - 1
    · rw [requestOnLoadEnd_dispatch _
        (by simp [List.length_set, hlen]; omega) (by simp [hab])]
      have hun : (s.phases.set i .endedNetErr)[s.lastRun + 1]? =
          some .unsent := by
        rw [getQ_set_ne _ _ _ _ (by omega)]
        exact hafter _ (by omega) (by omega)
      have e2 : contribSum ((s.phases.set i .endedNetErr).set
          (s.lastRun + 1) .sent) =
          contribSum (s.phases.set i .endedNetErr) := by
        have := contribSum_set (s.phases.set i .endedNetErr)
          (s.lastRun + 1) .sent .unsent hun
        simp [contrib] at this
        omega
      have l2 : countPh .doneOk ((s.phases.set i .endedNetErr).set
          (s.lastRun + 1) .sent) =
          countPh .doneOk (s.phases.set i .endedNetErr) := by
        have := countPh_set .doneOk (s.phases.set i .endedNetErr)
          (s.lastRun + 1) .sent .unsent hun
        simp at this
        omega
      refine ⟨hn, by simp [List.length_set, hlen], hab, by dsimp only; omega,
        by dsimp only; omega, ?_, ?_, by dsimp only; omega, ?_⟩
      · exact hend_cons_one s.n s.nLoadend tr _ (by simp) hend
      · refine hld_keep s.n s.nLoad tr _ hld ?_
        simp [countEv, countEv_append, countEv_ne_ite]
      · intro j hj1 hj2
        dsimp only at hj1 hj2 ⊢
        rw [getQ_set_ne _ _ _ _ (by omega)]
        rw [getQ_set_ne _ _ _ _ (by omega)]
        exact hafter j (by omega) (by omega)
    · rw [requestOnLoadEnd_stay _
        (by simp [List.length_set, hlen, hdisp])]
      refine ⟨hn, by simp [List.length_set, hlen], hab, by dsimp only; omega,
        by dsimp only; omega, ?_, ?_, by dsimp only; omega, ?_⟩
      · exact hend_cons_one s.n s.nLoadend tr _ (by simp) hend
      · refine hld_keep s.n s.nLoad tr _ hld ?_
        simp [countEv, countEv_append, countEv_ne_ite]
      · intro j hj1 hj2
        dsimp only at hj1 hj2 ⊢
        rw [getQ_set_ne _ _ _ _ (by omega)]
        exact hafter j (by omega) (by omega)

theorem inv_decodeDone (i : Nat) (ok : Bool) (s s' : St) (tr δ : List Ev)
    (hinv : Inv s tr) (hstep : stepA (.decodeDone i ok) s = some (s', δ)) :
    Inv s' (tr ++ δ) := by
  obtain ⟨hn, hlen, hab, hsum, hload, hend, hld, hlast, hafter⟩ := hinv
  rcases hv : s.phases[i]? with _ | p
  · simp only [stepA, hv] at hstep; cases hstep
  · cases p <;> simp only [stepA, hv] at hstep <;> try cases hstep
    case decoding =>
      have hiN : i < s.n := hlen ▸ getQ_lt_length hv
      have hiLast : i ≤ s.lastRun := by
        by_contra hgt
        have h2 := hafter i (by omega) hiN
        rw [hv] at h2
        simp at h2
      cases ok with
      | true =>
        rw [if_pos rfl] at hstep
        cases hstep
        simp only [addLoad, addLoadend, setPhase]
        have e1 : contribSum (s.phases.set i .doneOk) =
            contribSum s.phases + 1 := by
          have := contribSum_set s.phases i .doneOk .decoding hv
          simp [contrib] at this
          omega
        have l1 : countPh .doneOk (s.phases.set i .doneOk) =
            countPh .doneOk s.phases + 1 := by
          have := countPh_set .doneOk s.phases i .doneOk .decoding hv
          simp at this
          omega
        refine ⟨hn, by simp [List.length_set, hlen], hab, by dsimp only; omega,
          by dsimp only; omega, ?_, ?_, by dsimp only; omega, ?_⟩
        · exact hend_decodeOk s.n s.nLoad s.nLoadend tr i hend
        · exact hld_decodeOk s.n s.nLoad s.nLoadend tr i hld
        · intro j hj1 hj2
          dsimp only at hj1 hj2 ⊢
          rw [getQ_set_ne _ _ _ _ (by omega)]
          exact hafter j (by omega) (by omega)
      | false =>
        rw [if_neg (by simp)] at hstep
        cases hstep
        simp only [addLoadend, setPhase]
        have e1 : contribSum (s.phases.set i .doneDecodeErr) =
            contribSum s.phases + 1 := by
          have := contribSum_set s.phases i .doneDecodeErr .decoding hv
          simp [contrib] at this
          omega
        have l1 : countPh .doneOk (s.phases.set i .doneDecodeErr) =
            countPh .doneOk s.phases := by
          have := countPh_set .doneOk s.phases i .doneDecodeErr .decoding hv
          simp at this
          omega
        refine ⟨hn, by simp [List.length_set, hlen], hab, by dsimp only; omega,
          by dsimp only; omega, ?_, ?_, by dsimp only; omega, ?_⟩
        · exact hend_cons_one s.n s.nLoadend tr _ (by simp) hend
        · refine hld_keep s.n s.nLoad tr _ hld ?_
          simp [countEv, countEv_append, countEv_ne_ite]
        · intro j hj1 hj2
          dsimp only at hj1 hj2 ⊢
          rw [getQ_set_ne _ _ _ _ (by omega)]
          exact hafter j (by omega) (by omega)

theorem inv_step (a : Act) (s s' : St) (tr δ : List Ev) (hinv : Inv s tr)
    (hna : a ≠ .abortCall) (hstep : stepA a s = some (s', δ)) :
    Inv s' (tr ++ δ) := by
  cases a with
  | fetchDone i st ru stx => exact inv_fetchDone i st ru stx s s' tr δ hinv hstep
  | fetchNetErr i => exact inv_fetchNetErr i s s' tr δ hinv hstep
  | decodeDone i ok => exact inv_decodeDone i ok s s' tr δ hinv hstep
  | abortCall => exact absurd rfl hna

theorem noAbort_cons (a : Act) (rest : List Act)
    (h : noAbort (a :: rest) = true) :
    a ≠ Act.abortCall ∧ noAbort rest = true := by
  cases a <;> simp [noAbort] at h ⊢ <;> exact h

theorem run_inv (acts : List Act) (s : St) (tr : List Ev) (s' : St)
    (tr' : List Ev) (hinv : Inv s tr) (hna : noAbort acts = true)
    (hrun : run s tr acts = some (s', tr')) : Inv s' tr' := by
  induction acts generalizing s tr with
  | nil =>
    simp only [run, Option.some.injEq, Prod.mk.injEq] at hrun
    obtain ⟨h1, h2⟩ := hrun
    subst h1; subst h2
    exact hinv
  | cons a rest ih =>
    obtain ⟨hna1, hna2⟩ := noAbort_cons a rest hna
    simp only [run] at hrun
    cases hst : stepA a s with
    | none => rw [hst] at hrun; cases hrun
    | some p =>
      obtain ⟨s1, e1⟩ := p
      rw [hst] at hrun
      dsimp only at hrun
      exact ih s1 (tr ++ e1) (inv_step a s s1 tr e1 hinv hna1 hst) hna2 hrun

/-! ### Shape of the state produced by a successful loadUrls -/

theorem buildRequestsAux_cons_ok (loader : LoaderSpec) (opts : Option Options)
    (u : String) (us : List String) (acc : List Phase)
    (hu : loader.canLoadUrl u opts = true) :
    buildRequestsAux loader opts (u :: us) acc =
      buildRequestsAux loader opts us (acc ++ [Phase.unsent]) := by
  simp [buildRequestsAux, hu]

theorem buildRequestsAux_ok_all (loader : LoaderSpec) (opts : Option Options) :
    ∀ (urls : List String) (acc phases : List Phase),
    buildRequestsAux loader opts urls acc = .ok phases →
    ∀ u ∈ urls, loader.canLoadUrl u opts = true := by
  intro urls
  induction urls with
  | nil => intro acc phases _ u hu; simp at hu
  | cons v vs ih =>
    intro acc phases h u hu
    cases hc : loader.canLoadUrl v opts with
    | false =>
      simp only [buildRequestsAux, hc] at h
      simp at h
    | true =>
      rw [buildRequestsAux_cons_ok loader opts v vs acc hc] at h
      rcases List.mem_cons.mp hu with rfl | hu2
      · exact hc
      · exact ih _ _ h u hu2

theorem buildRequestsAux_ok_shape (loader : LoaderSpec) (opts : Option Options) :
    ∀ (urls : List String) (acc phases : List Phase),
    buildRequestsAux loader opts urls acc = .ok phases →
    phases = acc ++ List.replicate urls.length .unsent := by
  intro urls
  induction urls with
  | nil =>
    intro acc phases h
    simp only [buildRequestsAux, Except.ok.injEq] at h
    simp [h.symm]
  | cons u us ih =>
    intro acc phases h
    cases hc : loader.canLoadUrl u opts with
    | false => simp only [buildRequestsAux, hc] at h; simp at h
    | true =>
      rw [show buildRequestsAux loader opts (u :: us) acc =
        buildRequestsAux loader opts us (acc ++ [Phase.unsent]) from
        buildRequestsAux_cons_ok loader opts u us acc hc] at h
      have := ih (acc ++ [Phase.unsent]) phases h
      simp [this, List.replicate_succ]

theorem buildRequestsAux_err_shape (loader : LoaderSpec) (opts : Option Options)
    (bad : String) (rest : List String) (hbad : loader.canLoadUrl bad opts = false) :
    ∀ (good : List String) (acc : List Phase),
    (∀ u ∈ good, loader.canLoadUrl u opts = true) →
    buildRequestsAux loader opts (good ++ bad :: rest) acc =
      .error ("Input url of different type: " ++ bad,
        acc ++ List.replicate good.length .unsent) := by
  intro good
  induction good with
  | nil =>
    intro acc _
    simp only [List.nil_append, buildRequestsAux, hbad]
    simp
  | cons u us ih =>
    intro acc h
    have hu : loader.canLoadUrl u opts = true := h u (by simp)
    rw [List.cons_append, buildRequestsAux_cons_ok loader opts u _ acc hu]
    rw [ih (acc ++ [Phase.unsent]) (fun v hv => h v (by simp [hv]))]
    simp [List.replicate_succ]

theorem dispatchList_append (s : St) (l1 l2 : List Nat) :
    dispatchList s (l1 ++ l2) = dispatchList (dispatchList s l1) l2 := by
  induction l1 generalizing s with
  | nil => simp [dispatchList]
  | cons r rs ih => simp [dispatchList, ih]

theorem set_append_len {α : Type} (l1 l2 : List α) (c : α) :
    (l1 ++ l2).set l1.length c = l1 ++ l2.set 0 c := by
  induction l1 with
  | nil => simp
  | cons x xs ih => simp [ih]

theorem dispatchLoop_spec (n : Nat) :
    ∀ (k : Nat) (s : St), s.aborting = false →
    s.phases = List.replicate n .unsent → k ≤ n →
    dispatchLoop k s =
      { s with
          phases := List.replicate k .sent ++ List.replicate (n - k) .unsent
          lastRun := if k = 0 then s.lastRun else k - 1 } := by
  intro k
  induction k with
  | zero =>
    intro s hab hph _
    simp [dispatchLoop, dispatchList, hph.symm]
  | succ k ih =>
    intro s hab hph hk
    have hstep : dispatchLoop (k + 1) s =
        dispatchList (dispatchLoop k s) [k] := by
      rw [dispatchLoop, List.range_succ, dispatchList_append]
      rfl
    rw [hstep, ih s hab hph (by omega)]
    simp only [dispatchList, setPhase]
    rw [if_pos (by simp [hab])]
    have hrep : (List.replicate k Phase.sent ++
        List.replicate (n - k) Phase.unsent).set k Phase.sent =
        List.replicate (k + 1) Phase.sent ++
          List.replicate (n - (k + 1)) Phase.unsent := by
      have hlenk : (List.replicate k Phase.sent).length = k := by simp
      have := set_append_len (List.replicate k Phase.sent)
        (List.replicate (n - k) Phase.unsent) Phase.sent
      rw [hlenk] at this
      rw [this]
      have hnk : n - k = (n - (k + 1)) + 1 := by omega
      rw [hnk, List.replicate_succ]
      simp [List.replicate_succ']
    simp only [hrep]
    rcases Nat.eq_zero_or_pos k with hk0 | hk0 <;> simp [hk0]

theorem computeBatchSize_le (m : Nat) (opts : Option Options) :
    computeBatchSize m opts ≤ m := by
  cases opts with
  | none => simp [computeBatchSize]
  | some o =>
    simp only [computeBatchSize]
    cases o.batchSize with
    | none => exact Nat.le_refl m
    | some b =>
      dsimp only
      split <;> omega

theorem loadUrls_ok_spec (L : List LoaderSpec) (s0 : St) (d0 : String)
    (ds : List String) (opts : Option Options) (t : St)
    (h : loadUrls L s0 (some (d0 :: ds)) opts = .ok t) :
    ∃ loader, findLoader L d0 opts = some loader ∧
      (∀ u ∈ d0 :: ds, loader.canLoadUrl u opts = true) ∧
      t = dispatchLoop (computeBatchSize (d0 :: ds).length opts)
        { n := (d0 :: ds).length, nLoad := 0, nLoadend := 0, aborting := false
          phases := List.replicate (d0 :: ds).length .unsent, lastRun := 0
          hasLoader := true, loaderAborted := false } := by
  simp only [loadUrls] at h
  cases hf : findLoader L d0 opts with
  | none => rw [hf] at h; cases h
  | some loader =>
    rw [hf] at h
    dsimp only at h
    cases hb : buildRequestsAux loader opts (d0 :: ds) [] with
    | error e =>
      obtain ⟨msg, built⟩ := e
      rw [hb] at h
      cases h
    | ok phases =>
      rw [hb] at h
      dsimp only at h
      have hsh := buildRequestsAux_ok_shape loader opts (d0 :: ds) [] phases hb
      simp only [List.nil_append] at hsh
      subst hsh
      refine ⟨loader, rfl, ?_, ?_⟩
      · exact buildRequestsAux_ok_all loader opts (d0 :: ds) [] _ hb
      · injection h with h2
        rw [← h2]
        simp [List.length_replicate]

theorem inv_init (L : List LoaderSpec) (s0 : St) (d0 : String)
    (ds : List String) (opts : Option Options) (t : St)
    (h : loadUrls L s0 (some (d0 :: ds)) opts = .ok t) : Inv t [] := by
  obtain ⟨loader, _, _, ht⟩ := loadUrls_ok_spec L s0 d0 ds opts t h
  have hn1 : 1 ≤ (d0 :: ds).length := by simp
  have hk := computeBatchSize_le (d0 :: ds).length opts
  rw [dispatchLoop_spec (d0 :: ds).length _ _ rfl rfl hk] at ht
  subst ht
  set n := (d0 :: ds).length with hn
  set k := computeBatchSize n opts with hkdef
  refine ⟨hn1, by simp; omega, rfl, ?_, ?_, ?_, ?_, ?_, ?_⟩
  · show (0 : Nat) = contribSum _
    rw [contribSum_append, contribSum_replicate, contribSum_replicate]
    simp [contrib]
  · show (0 : Nat) = countPh .doneOk _
    rw [countPh_append, countPh_replicate, countPh_replicate]
    simp
  · show countEv .loadend [] = _
    rw [show countEv Ev.loadend [] = 0 from rfl, if_neg (by dsimp only; omega)]
  · show countEv .load [] = _
    rw [show countEv Ev.load [] = 0 from rfl, if_neg (by dsimp only; omega)]
  · show (if k = 0 then 0 else k - 1) < n
    split <;> omega
  · intro i hi1 hi2
    dsimp only at hi1 hi2 ⊢
    rw [getQ_rep_append]
    rcases Nat.eq_zero_or_pos k with hk0 | hk0
    · rw [if_neg (by omega), if_pos (by omega)]
    · rw [if_neg (by rw [if_neg (by omega)] at hi1; omega),
        if_pos (by omega)]

/-! ### Window invariant for the concurrency bound -/

theorem invW_requestDone (k i : Nat) (p : Phase) (s w : St) (tr : List Ev)
    (hinv : Inv s tr) (hw : InvW k s) (hv : s.phases[i]? = some .sent)
    (hp : p ≠ .sent) (hpu : p ≠ .unsent)
    (hwph : w.phases = s.phases.set i p) (hwlr : w.lastRun = s.lastRun)
    (hwab : w.aborting = s.aborting) (hwn : w.n = s.n) :
    InvW k (requestOnLoadEnd w).1 := by
  obtain ⟨hn, hlen, hab, _, _, _, _, hlast, hafter⟩ := hinv
  obtain ⟨hcnt, hwin⟩ := hw
  have hiN : i < s.n := hlen ▸ getQ_lt_length hv
  have hiLast : i ≤ s.lastRun := by
    by_contra hgt
    have h2 := hafter i (by omega) hiN
    rw [hv] at h2
    simp at h2
  have hc1 : countPh .sent (s.phases.set i p) + 1 = countPh .sent s.phases := by
    have := countPh_set .sent s.phases i p .sent hv
    simp [hp] at this
    omega
  by_cases hdisp : s.lastRun < s.n - 1
  · rw [requestOnLoadEnd_dispatch _
      (by rw [hwlr, hwph]; simp [List.length_set, hlen]; omega)
      (by rw [hwab, hab])]
    have hun : (s.phases.set i p)[s.lastRun + 1]? = some .unsent := by
      rw [getQ_set_ne _ _ _ _ (by omega)]
      exact hafter _ (by omega) (by omega)
    have hc2 : countPh .sent ((s.phases.set i p).set (s.lastRun + 1) .sent) =
        countPh .sent (s.phases.set i p) + 1 := by
      have := countPh_set .sent (s.phases.set i p) (s.lastRun + 1)
        .sent .unsent hun
      simp at this
      omega
    refine ⟨?_, ?_⟩
    · show countPh .sent (w.phases.set (w.lastRun + 1) .sent) ≤ k
      rw [hwph, hwlr]
      omega
    · intro j hj1 hj2
      simp only [hwph, hwlr, hwn] at hj1 hj2 ⊢
      by_cases hj : j = s.lastRun + 1
      · subst hj
        rw [getQ_set_eq _ _ _ (by simp [List.length_set]; omega)]
        simp
      · rw [getQ_set_ne _ _ _ _ (by omega)]
        by_cases hji : j = i
        · subst hji
          rw [getQ_set_eq _ _ _ (by omega)]
          simp [hpu]
        · rw [getQ_set_ne _ _ _ _ (by omega)]
          exact hwin j (by omega) (by omega)
  · rw [requestOnLoadEnd_stay _
      (by rw [hwlr, hwph, hwab]; simp [List.length_set, hlen, hab, hdisp])]
    refine ⟨?_, ?_⟩
    · show countPh .sent w.phases ≤ k
      rw [hwph]
      omega
    · intro j hj1 hj2
      simp only [hwph, hwlr, hwn] at hj1 hj2 ⊢
      by_cases hji : j = i
      · subst hji
        rw [getQ_set_eq _ _ _ (by omega)]
        simp [hpu]
      · rw [getQ_set_ne _ _ _ _ (by omega)]
        exact hwin j (by omega) (by omega)

theorem invW_step (k : Nat) (a : Act) (s s' : St) (tr δ : List Ev)
    (hinv : Inv s tr) (hw : InvW k s) (hna : a ≠ .abortCall)
    (hstep : stepA a s = some (s', δ)) : InvW k s' := by
  cases a with
  | abortCall => exact absurd rfl hna
  | fetchDone i status ru stx =>
    rcases hv : s.phases[i]? with _ | p
    · simp only [stepA, hv] at hstep; cases hstep
    · cases p <;> simp only [stepA, hv] at hstep <;> cases hstep
      by_cases hbad : status ≠ 200 ∧ status ≠ 0
      · rw [getLoadHandler_bad i status ru stx s hbad]
        exact invW_requestDone k i .doneStatusErr s _ tr hinv hw hv
          (by simp) (by simp) rfl rfl rfl rfl
      · rw [getLoadHandler_ok i status ru stx s hbad]
        exact invW_requestDone k i .decoding s _ tr hinv hw hv
          (by simp) (by simp) rfl rfl rfl rfl
  | fetchNetErr i =>
    rcases hv : s.phases[i]? with _ | p
    · simp only [stepA, hv] at hstep; cases hstep
    · cases p <;> simp only [stepA, hv] at hstep <;> cases hstep
      exact invW_requestDone k i .endedNetErr s _ tr hinv hw hv
        (by simp) (by simp) rfl rfl rfl rfl
  | decodeDone i ok =>
    obtain ⟨hn, hlen, hab, _, _, _, _, hlast, hafter⟩ := hinv
    obtain ⟨hcnt, hwin⟩ := hw
    rcases hv : s.phases[i]? with _ | p
    · simp only [stepA, hv] at hstep; cases hstep
    · cases p <;> simp only [stepA, hv] at hstep <;> try cases hstep
      case decoding =>
        have hiN : i < s.n := hlen ▸ getQ_lt_length hv
        have hnext : ∀ q : Phase, q ≠ .sent → q ≠ .unsent →
            InvW k (setPhase i q s) := by
          intro q hq hqu
          have hc1 : countPh .sent (s.phases.set i q) =
              countPh .sent s.phases := by
            have := countPh_set .sent s.phases i q .decoding hv
            simp [hq] at this
            omega
          refine ⟨by rw [setPhase]; dsimp only; omega, ?_⟩
          intro j hj1 hj2
          rw [setPhase] at hj1 hj2 ⊢
          dsimp only at hj1 hj2 ⊢
          by_cases hji : j = i
          · subst hji
            rw [getQ_set_eq _ _ _ (by omega)]
            simp [hqu]
          · rw [getQ_set_ne _ _ _ _ (by omega)]
            exact hwin j (by omega) (by omega)
        cases ok with
        | true =>
          rw [if_pos rfl] at hstep
          cases hstep
          have := hnext .doneOk (by simp) (by simp)
          rw [setPhase] at this
          simp only [setPhase, addLoad, addLoadend]
          obtain ⟨hc, hwn⟩ := this
          exact ⟨by simpa using hc, by simpa using hwn⟩
        | false =>
          rw [if_neg (by simp)] at hstep
          cases hstep
          have := hnext .doneDecodeErr (by simp) (by simp)
          rw [setPhase] at this
          simp only [setPhase, addLoadend]
          obtain ⟨hc, hwn⟩ := this
          exact ⟨by simpa using hc, by simpa using hwn⟩

theorem invW_run (k : Nat) (acts : List Act) (s : St) (tr : List Ev)
    (s' : St) (tr' : List Ev) (hinv : Inv s tr) (hw : InvW k s)
    (hna : noAbort acts = true) (hrun : run s tr acts = some (s', tr')) :
    InvW k s' := by
  induction acts generalizing s tr with
  | nil =>
    simp only [run, Option.some.injEq, Prod.mk.injEq] at hrun
    obtain ⟨h1, _⟩ := hrun
    subst h1
    exact hw
  | cons a rest ih =>
    obtain ⟨hna1, hna2⟩ := noAbort_cons a rest hna
    simp only [run] at hrun
    cases hst : stepA a s with
    | none => rw [hst] at hrun; cases hrun
    | some p =>
      obtain ⟨s1, e1⟩ := p
      rw [hst] at hrun
      dsimp only at hrun
      exact ih s1 (tr ++ e1) (inv_step a s s1 tr e1 hinv hna1 hst)
        (invW_step k a s s1 tr e1 hinv hw hna1 hst) hna2 hrun

/-! ### Behavior of UrlsLoader.abort -/

theorem reqAbortIfActive_sent (i : Nat) (s : St) (hab : s.aborting = true)
    (hv : s.phases[i]? = some .sent) :
    reqAbortIfActive i s =
      ({ s with
          phases := s.phases.set i .endedAbort
          nLoadend := s.nLoadend + 1 },
       Ev.abortEvt i ::
         (if s.nLoadend + 1 = 2 * s.n then [Ev.loadend] else [])) := by
  simp only [reqAbortIfActive, hv, readyState]
  rw [if_pos (by omega)]
  simp only [reqAbort, hv]
  rw [setPhase, requestOnLoadEnd_stay _ (by simp [hab])]

theorem reqAbortIfActive_nonsent (i : Nat) (s : St)
    (hv : ∀ q, s.phases[i]? = some q → q ≠ .sent) :
    reqAbortIfActive i s = (s, []) := by
  simp only [reqAbortIfActive, reqAbort]
  cases hq : s.phases[i]? with
  | none => rfl
  | some q =>
    cases q
    case sent => exact absurd rfl (hv .sent hq)
    all_goals simp [readyState]

theorem reqAbortIfActive_phases (i j : Nat) (s : St) (hab : s.aborting = true) :
    (reqAbortIfActive i s).1.phases[j]? =
      if j = i ∧ s.phases[i]? = some .sent then some .endedAbort
      else s.phases[j]? := by
  cases hq : s.phases[i]? with
  | none =>
    rw [reqAbortIfActive_nonsent i s (fun q h => by rw [hq] at h; cases h)]
    simp [hq]
  | some q =>
    by_cases hqs : q = .sent
    · subst hqs
      rw [reqAbortIfActive_sent i s hab hq]
      dsimp only
      by_cases hj : j = i
      · subst hj
        rw [getQ_set_eq _ _ _ (getQ_lt_length hq)]
        simp [hq]
      · rw [getQ_set_ne _ _ _ _ (by omega)]
        simp [hj]
    · rw [reqAbortIfActive_nonsent i s
        (fun r h => by rw [hq] at h; cases h; exact hqs)]
      simp [hqs]

theorem reqAbortIfActive_fields (i : Nat) (s : St) (hab : s.aborting = true) :
    (reqAbortIfActive i s).1.n = s.n ∧
    (reqAbortIfActive i s).1.nLoad = s.nLoad ∧
    (reqAbortIfActive i s).1.aborting = true ∧
    (reqAbortIfActive i s).1.lastRun = s.lastRun ∧
    (reqAbortIfActive i s).1.hasLoader = s.hasLoader ∧
    (reqAbortIfActive i s).1.loaderAborted = s.loaderAborted ∧
    (reqAbortIfActive i s).1.phases.length = s.phases.length ∧
    countPh .decoding (reqAbortIfActive i s).1.phases =
      countPh .decoding s.phases := by
  cases hq : s.phases[i]? with
  | none =>
    rw [reqAbortIfActive_nonsent i s (fun q h => by rw [hq] at h; cases h)]
    exact ⟨rfl, rfl, hab, rfl, rfl, rfl, rfl, rfl⟩
  | some q =>
    by_cases hqs : q = .sent
    · subst hqs
      rw [reqAbortIfActive_sent i s hab hq]
      refine ⟨rfl, rfl, hab, rfl, rfl, rfl, by simp [List.length_set], ?_⟩
      show countPh .decoding (s.phases.set i .endedAbort) =
        countPh .decoding s.phases
      have := countPh_set .decoding s.phases i .endedAbort .sent hq
      simp at this
      omega
    · rw [reqAbortIfActive_nonsent i s
        (fun r h => by rw [hq] at h; cases h; exact hqs)]
      exact ⟨rfl, rfl, hab, rfl, rfl, rfl, rfl, rfl⟩

theorem abortList_fields (l : List Nat) : ∀ (s : St), s.aborting = true →
    (abortList s l).1.n = s.n ∧
    (abortList s l).1.nLoad = s.nLoad ∧
    (abortList s l).1.aborting = true ∧
    (abortList s l).1.lastRun = s.lastRun ∧
    (abortList s l).1.hasLoader = s.hasLoader ∧
    (abortList s l).1.loaderAborted = s.loaderAborted ∧
    (abortList s l).1.phases.length = s.phases.length ∧
    countPh .decoding (abortList s l).1.phases =
      countPh .decoding s.phases := by
  induction l with
  | nil => intro s hab; exact ⟨rfl, rfl, hab, rfl, rfl, rfl, rfl, rfl⟩
  | cons i is ih =>
    intro s hab
    obtain ⟨f1, f2, f3, f4, f5, f6, f7, f8⟩ :=
      reqAbortIfActive_fields i s hab
    obtain ⟨g1, g2, g3, g4, g5, g6, g7, g8⟩ :=
      ih (reqAbortIfActive i s).1 f3
    simp only [abortList]
    exact ⟨g1.trans f1, g2.trans f2, g3, g4.trans f4, g5.trans f5,
      g6.trans f6, g7.trans f7, g8.trans f8⟩

theorem abortList_phases (l : List Nat) : ∀ (s : St) (j : Nat),
    s.aborting = true →
    (abortList s l).1.phases[j]? =
      if j ∈ l ∧ s.phases[j]? = some .sent then some .endedAbort
      else s.phases[j]? := by
  induction l with
  | nil => intro s j _; simp [abortList]
  | cons i is ih =>
    intro s j hab
    obtain ⟨_, _, f3, _, _, _, _, _⟩ := reqAbortIfActive_fields i s hab
    simp only [abortList]
    rw [ih (reqAbortIfActive i s).1 j f3]
    rw [reqAbortIfActive_phases i j s hab]
    by_cases hji : j = i
    · subst hji
      by_cases hs : s.phases[j]? = some .sent
      · simp [hs]
      · simp [hs]
    · by_cases hjs : j ∈ is
      all_goals by_cases hs : s.phases[j]? = some .sent
      all_goals simp [hji, hjs, hs]

theorem abortList_id (s : St) (hnosent : ∀ j : Nat, s.phases[j]? ≠ some .sent)
    (l : List Nat) : abortList s l = (s, []) := by
  induction l with
  | nil => rfl
  | cons i is ih =>
    have hstep : reqAbortIfActive i s = (s, []) :=
      reqAbortIfActive_nonsent i s
        (fun q h => fun hq => hnosent i (by rw [h, hq]))
    simp [abortList, hstep, ih]

theorem abortList_abortEvt (l : List Nat) : ∀ (s : St) (i : Nat),
    s.aborting = true → i ∈ l → s.phases[i]? = some .sent →
    Ev.abortEvt i ∈ (abortList s l).2 := by
  induction l with
  | nil => intro s i _ h; simp at h
  | cons jh is ih =>
    intro s i hab hmem hv
    obtain ⟨_, _, f3, _, _, _, _, _⟩ := reqAbortIfActive_fields jh s hab
    simp only [abortList]
    by_cases hji : i = jh
    · subst hji
      rw [reqAbortIfActive_sent i s hab hv]
      simp
    · have hkeep : (reqAbortIfActive jh s).1.phases[i]? = some .sent := by
        rw [reqAbortIfActive_phases jh i s hab]
        simp [hji, hv]
      have hmem2 : i ∈ is := by
        rcases List.mem_cons.mp hmem with h | h
        · exact absurd h hji
        · exact h
      have := ih (reqAbortIfActive jh s).1 i f3 hmem2 hkeep
      simp [this]

theorem countP_range_sent (l : List Phase) :
    (List.range l.length).countP
      (fun i => decide (l[i]? = some Phase.sent)) = countPh .sent l := by
  induction l with
  | nil => simp [countPh]
  | cons p ps ih =>
    rw [List.length_cons, List.range_succ_eq_map]
    rw [List.countP_cons, List.countP_map]
    have : ((fun i => decide ((p :: ps)[i]? = some Phase.sent)) ∘
        (fun i => i + 1)) =
        (fun i => decide (ps[i]? = some Phase.sent)) := by
      funext i
      simp
    rw [this, ih]
    simp only [countPh]
    by_cases hp : p = Phase.sent
    all_goals simp [hp]
    all_goals omega

theorem abortList_nLoadend (l : List Nat) : ∀ (s : St),
    s.aborting = true → l.Nodup →
    (abortList s l).1.nLoadend = s.nLoadend +
      l.countP (fun i => decide (s.phases[i]? = some Phase.sent)) := by
  induction l with
  | nil => intro s _ _; simp [abortList]
  | cons i is ih =>
    intro s hab hnd
    have hnd2 : is.Nodup := (List.nodup_cons.mp hnd).2
    have hni : i ∉ is := (List.nodup_cons.mp hnd).1
    obtain ⟨_, _, f3, _, _, _, _, _⟩ := reqAbortIfActive_fields i s hab
    simp only [abortList]
    rw [ih (reqAbortIfActive i s).1 f3 hnd2]
    have hcongr : is.countP
        (fun j => decide ((reqAbortIfActive i s).1.phases[j]? =
          some Phase.sent)) =
        is.countP (fun j => decide (s.phases[j]? = some Phase.sent)) := by
      refine List.countP_congr ?_
      intro j hj
      have hji : j ≠ i := fun h => hni (h ▸ hj)
      rw [reqAbortIfActive_phases i j s hab]
      simp [hji]
    rw [hcongr]
    rw [List.countP_cons]
    cases hq : s.phases[i]? with
    | none =>
      rw [reqAbortIfActive_nonsent i s (fun q h => by rw [hq] at h; cases h)]
      simp [hq]
    | some q =>
      by_cases hqs : q = .sent
      · subst hqs
        rw [reqAbortIfActive_sent i s hab hq]
        simp [hq]
        omega
      · rw [reqAbortIfActive_nonsent i s
          (fun r h => by rw [hq] at h; cases h; exact hqs)]
        simp [hq, hqs]

theorem countPh_decoding_map_clear (l : List Phase) :
    countPh .decoding (l.map
      (fun p => if p = .decoding then .decodeAborted else p)) = 0 := by
  induction l with
  | nil => rfl
  | cons p ps ih =>
    simp only [List.map_cons, countPh, ih]
    by_cases hp : p = .decoding <;> simp [hp]

theorem loaderAbort_not_loading (s : St) :
    isLoading (loaderAbort s).1 = false := by
  simp only [loaderAbort, addLoadend, isLoading, countDecoding]
  simp [countPh_decoding_map_clear]

theorem st_eta_aborting (s : St) (h : s.aborting = true) :
    ({ s with aborting := true } : St) = s := by
  cases s
  simp_all

theorem abortFun_core (s : St) :
    abortFun s =
      (if (abortList { s with aborting := true }
          (List.range s.phases.length)).1.hasLoader &&
          isLoading (abortList { s with aborting := true }
            (List.range s.phases.length)).1 then
        ((loaderAbort (abortList { s with aborting := true }
            (List.range s.phases.length)).1).1,
         (abortList { s with aborting := true }
            (List.range s.phases.length)).2 ++
          (loaderAbort (abortList { s with aborting := true }
            (List.range s.phases.length)).1).2)
      else abortList { s with aborting := true }
        (List.range s.phases.length)) := rfl

theorem abortFun_aborting (s : St) : (abortFun s).1.aborting = true := by
  rw [abortFun_core]
  obtain ⟨_, _, f3, _, _, _, _, _⟩ :=
    abortList_fields (List.range s.phases.length)
      { s with aborting := true } rfl
  split
  · simp only [loaderAbort, addLoadend]
    exact f3
  · exact f3

theorem abortFun_no_sent (s : St) :
    ∀ j : Nat, (abortFun s).1.phases[j]? ≠ some .sent := by
  intro j
  have hls : ∀ t : St, (∀ j2 : Nat, t.phases[j2]? ≠ some Phase.sent) →
      ∀ j2 : Nat, (loaderAbort t).1.phases[j2]? ≠ some Phase.sent := by
    intro t ht j2
    simp only [loaderAbort, addLoadend]
    rw [List.getElem?_map]
    intro hcontra
    cases hq : t.phases[j2]? with
    | none => rw [hq] at hcontra; cases hcontra
    | some q =>
      rw [hq] at hcontra
      have hval : (if q = Phase.decoding then Phase.decodeAborted else q) =
          Phase.sent := Option.some.inj hcontra
      split at hval
      · cases hval
      · exact ht j2 (by rw [hq, hval])
  have hnos : ∀ j2 : Nat, (abortList { s with aborting := true }
      (List.range s.phases.length)).1.phases[j2]? ≠ some Phase.sent := by
    intro j2
    rw [abortList_phases _ _ _ rfl]
    split
    · simp
    · intro hcontra
      rename_i hcond
      have hj2 : j2 < s.phases.length := getQ_lt_length hcontra
      exact hcond ⟨by simp [List.mem_range]; omega, hcontra⟩
  rw [abortFun_core]
  split
  · exact hls _ hnos j
  · exact hnos j

theorem abortFun_idem (s : St) :
    abortFun ((abortFun s).1) = ((abortFun s).1, []) := by
  have ha : (abortFun s).1.aborting = true := abortFun_aborting s
  have hns : ∀ j : Nat, (abortFun s).1.phases[j]? ≠ some .sent :=
    abortFun_no_sent s
  have hnl : ((abortFun s).1.hasLoader && isLoading (abortFun s).1) = false := by
    rw [abortFun_core]
    split
    · rename_i hcond
      rw [Bool.and_eq_false_iff]
      right
      exact loaderAbort_not_loading _
    · rename_i hcond
      simp only [Bool.and_eq_true] at hcond
      rw [Bool.and_eq_false_iff]
      by_cases h1 : (abortList { s with aborting := true }
          (List.range s.phases.length)).1.hasLoader = true
      · right
        by_contra h2
        exact hcond ⟨h1, by simpa using h2⟩
      · left
        simpa using h1
  rw [abortFun_core ((abortFun s).1)]
  rw [st_eta_aborting _ ha]
  rw [abortList_id _ hns]
  rw [if_neg (by simp [hnl])]

theorem abortFun_phases_sent (s : St) (i : Nat)
    (hv : s.phases[i]? = some .sent) :
    (abortFun s).1.phases[i]? = some .endedAbort := by
  have hi : i < s.phases.length := getQ_lt_length hv
  have hin : (abortList { s with aborting := true }
      (List.range s.phases.length)).1.phases[i]? = some .endedAbort := by
    rw [abortList_phases _ _ _ rfl]
    rw [if_pos ⟨by simp [List.mem_range, hi], hv⟩]
  rw [abortFun_core]
  split
  · simp only [loaderAbort, addLoadend]
    rw [List.getElem?_map, hin]
    simp
  · exact hin

theorem abortFun_phases_other (s : St) (i : Nat) (p : Phase)
    (hv : s.phases[i]? = some p) (hp1 : p ≠ .sent) (hp2 : p ≠ .decoding) :
    (abortFun s).1.phases[i]? = some p := by
  have hin : (abortList { s with aborting := true }
      (List.range s.phases.length)).1.phases[i]? = some p := by
    rw [abortList_phases _ _ _ rfl]
    rw [if_neg (by rintro ⟨_, h2⟩; rw [hv] at h2; cases h2; exact hp1 rfl)]
    exact hv
  rw [abortFun_core]
  split
  · simp only [loaderAbort, addLoadend]
    rw [List.getElem?_map, hin]
    simp [hp2]
  · exact hin

theorem abortFun_abortEvt (s : St) (i : Nat)
    (hv : s.phases[i]? = some .sent) :
    Ev.abortEvt i ∈ (abortFun s).2 := by
  have hi : i < s.phases.length := getQ_lt_length hv
  have hmem := abortList_abortEvt (List.range s.phases.length)
    { s with aborting := true } i rfl (by simp [List.mem_range, hi]) hv
  rw [abortFun_core]
  split
  · simp [hmem]
  · exact hmem

theorem abortFun_loaderAborted (s : St) :
    (abortFun s).1.loaderAborted =
      (s.loaderAborted || (s.hasLoader && isLoading s)) := by
  obtain ⟨_, _, _, _, f5, f6, _, f8⟩ :=
    abortList_fields (List.range s.phases.length)
      { s with aborting := true } rfl
  have hcondval : ((abortList { s with aborting := true }
      (List.range s.phases.length)).1.hasLoader &&
      isLoading (abortList { s with aborting := true }
        (List.range s.phases.length)).1) = (s.hasLoader && isLoading s) := by
    rw [f5]
    have hl2 : isLoading (abortList { s with aborting := true }
        (List.range s.phases.length)).1 = isLoading s := by
      simp only [isLoading, countDecoding, f8]
    rw [hl2]
  rw [abortFun_core]
  by_cases hc : (s.hasLoader && isLoading s) = true
  · rw [if_pos (by rw [hcondval]; exact hc)]
    simp only [loaderAbort, addLoadend]
    simp [hc]
  · rw [if_neg (by rw [hcondval]; exact hc)]
    rw [f6]
    have hcf : (s.hasLoader && isLoading s) = false := by
      cases h : s.hasLoader && isLoading s with
      | false => rfl
      | true => exact absurd h hc
    simp [hcf]

theorem abortFun_nLoadend (s : St) :
    (abortFun s).1.nLoadend = s.nLoadend + countPh .sent s.phases +
      (if s.hasLoader && isLoading s then 1 else 0) := by
  obtain ⟨_, _, _, _, f5, _, _, f8⟩ :=
    abortList_fields (List.range s.phases.length)
      { s with aborting := true } rfl
  have hcondval : ((abortList { s with aborting := true }
      (List.range s.phases.length)).1.hasLoader &&
      isLoading (abortList { s with aborting := true }
        (List.range s.phases.length)).1) = (s.hasLoader && isLoading s) := by
    rw [f5]
    have hl2 : isLoading (abortList { s with aborting := true }
        (List.range s.phases.length)).1 = isLoading s := by
      simp only [isLoading, countDecoding, f8]
    rw [hl2]
  have hbase := abortList_nLoadend (List.range s.phases.length)
    { s with aborting := true } rfl (List.nodup_range _)
  rw [countP_range_sent s.phases] at hbase
  rw [abortFun_core]
  by_cases hc : (s.hasLoader && isLoading s) = true
  · rw [if_pos (by rw [hcondval]; exact hc)]
    simp only [loaderAbort, addLoadend]
    rw [hbase]
    simp [hc]
  · rw [if_neg (by rw [hcondval]; exact hc)]
    rw [hbase]
    have hcf : (s.hasLoader && isLoading s) = false := by
      cases h : s.hasLoader && isLoading s with
      | false => rfl
      | true => exact absurd h hc
    simp [hcf]

/-! ### No dispatch once the aborting flag is set -/

theorem step_aborted (a : Act) (s s' : St) (δ : List Ev)
    (hab : s.aborting = true) (hstep : stepA a s = some (s', δ)) :
    s'.aborting = true ∧
    (∀ i : Nat, s.phases[i]? = some .unsent →
      s'.phases[i]? = some .unsent) := by
  cases a with
  | fetchDone i status ru stx =>
    rcases hv : s.phases[i]? with _ | p
    · simp only [stepA, hv] at hstep; cases hstep
    · cases p <;> simp only [stepA, hv] at hstep <;> cases hstep
      have hkeep : ∀ (w : St) (j : Nat), w.phases = s.phases.set i
          (if status ≠ 200 ∧ status ≠ 0 then Phase.doneStatusErr
            else Phase.decoding) →
          s.phases[j]? = some .unsent →
          w.phases[j]? = some .unsent := by
        intro w jj hw hj
        have hij : i ≠ jj := by
          intro h
          rw [h, hj] at hv
          cases hv
        rw [hw, getQ_set_ne _ _ _ _ hij]
        exact hj
      by_cases hbad : status ≠ 200 ∧ status ≠ 0
      · rw [getLoadHandler_bad i status ru stx s hbad]
        rw [requestOnLoadEnd_stay _ (by simp [hab])]
        refine ⟨hab, ?_⟩
        intro jj hj
        exact hkeep _ jj (by simp [hbad]) hj
      · rw [getLoadHandler_ok i status ru stx s hbad, setPhase]
        rw [requestOnLoadEnd_stay _ (by simp [hab])]
        refine ⟨hab, ?_⟩
        intro jj hj
        exact hkeep _ jj (by simp [hbad]) hj
  | fetchNetErr i =>
    rcases hv : s.phases[i]? with _ | p
    · simp only [stepA, hv] at hstep; cases hstep
    · cases p <;> simp only [stepA, hv] at hstep <;> cases hstep
      rw [setPhase, requestOnLoadEnd_stay _ (by simp [hab])]
      refine ⟨hab, ?_⟩
      intro jj hj
      have hij : i ≠ jj := by
        intro h
        rw [h, hj] at hv
        cases hv
      show (s.phases.set i Phase.endedNetErr)[jj]? = some Phase.unsent
      rw [getQ_set_ne _ _ _ _ hij]
      exact hj
  | decodeDone i ok =>
    rcases hv : s.phases[i]? with _ | p
    · simp only [stepA, hv] at hstep; cases hstep
    · cases p <;> simp only [stepA, hv] at hstep <;> try cases hstep
      case decoding =>
        have hij : ∀ jj : Nat, s.phases[jj]? = some .unsent → i ≠ jj := by
          intro jj hj h
          rw [h, hj] at hv
          cases hv
        cases ok with
        | true =>
          rw [if_pos rfl] at hstep
          cases hstep
          simp only [setPhase, addLoad, addLoadend]
          refine ⟨hab, ?_⟩
          intro jj hj
          show ((s.phases.set i Phase.doneOk))[jj]? = some Phase.unsent
          rw [getQ_set_ne _ _ _ _ (hij jj hj)]
          exact hj
        | false =>
          rw [if_neg (by simp)] at hstep
          cases hstep
          simp only [setPhase, addLoadend]
          refine ⟨hab, ?_⟩
          intro jj hj
          show ((s.phases.set i Phase.doneDecodeErr))[jj]? = some Phase.unsent
          rw [getQ_set_ne _ _ _ _ (hij jj hj)]
          exact hj
  | abortCall =>
    simp only [stepA] at hstep
    have h1 : (abortFun s).1 = s' := congrArg Prod.fst (Option.some.inj hstep)
    refine ⟨h1 ▸ abortFun_aborting s, ?_⟩
    intro i hi
    rw [← h1]
    exact abortFun_phases_other s i .unsent hi (by simp) (by simp)

theorem run_aborted (acts : List Act) : ∀ (s : St) (tr : List Ev) (s' : St)
    (tr' : List Ev), s.aborting = true → run s tr acts = some (s', tr') →
    s'.aborting = true ∧
    (∀ i : Nat, s.phases[i]? = some .unsent →
      s'.phases[i]? = some .unsent) := by
  induction acts with
  | nil =>
    intro s tr s' tr' hab hrun
    simp only [run, Option.some.injEq, Prod.mk.injEq] at hrun
    obtain ⟨h1, _⟩ := hrun
    subst h1
    exact ⟨hab, fun _ h => h⟩
  | cons a rest ih =>
    intro s tr s' tr' hab hrun
    simp only [run] at hrun
    cases hst : stepA a s with
    | none => rw [hst] at hrun; cases hrun
    | some p =>
      obtain ⟨s1, e1⟩ := p
      rw [hst] at hrun
      dsimp only at hrun
      obtain ⟨g1, g2⟩ := step_aborted a s s1 e1 hab hst
      obtain ⟨h1, h2⟩ := ih s1 (tr ++ e1) s' tr' g1 hrun
      exact ⟨h1, fun i hi => h2 i (g2 i hi)⟩

/-! ### Trace shifting and state independence of loadUrls -/

theorem run_trace_shift (acts : List Act) : ∀ (s : St) (tr : List Ev),
    run s tr acts = (run s [] acts).map (fun p => (p.1, tr ++ p.2)) := by
  induction acts with
  | nil => intro s tr; simp [run]
  | cons a rest ih =>
    intro s tr
    simp only [run]
    cases hst : stepA a s with
    | none => simp
    | some p =>
      obtain ⟨s1, e1⟩ := p
      dsimp only
      rw [ih s1 (tr ++ e1), ih s1 ([] ++ e1)]
      cases run s1 [] rest with
      | none => simp
      | some q => simp

theorem loadUrls_state_irrel (L : List LoaderSpec) (s s' : St) (d0 : String)
    (ds : List String) (opts : Option Options) :
    loadUrls L s (some (d0 :: ds)) opts =
      loadUrls L s' (some (d0 :: ds)) opts := rfl

/-! ### Facts about batches whose items have all concluded -/

theorem contribSum_concluded (ps : List Phase)
    (h : allConcluded ps = true) : contribSum ps = 2 * ps.length := by
  induction ps with
  | nil => simp [contribSum]
  | cons p rest ih =>
    simp only [allConcluded, List.all_cons, Bool.and_eq_true] at h
    obtain ⟨hp, hrest⟩ := h
    have h2 : contrib p = 2 := by
      have hp2 : p = Phase.doneOk ∨ p = Phase.doneDecodeErr ∨
          p = Phase.doneStatusErr := by simpa using hp
      rcases hp2 with rfl | rfl | rfl <;> rfl
    simp only [contribSum, List.length_cons, ih (by simpa [allConcluded]
      using hrest)]
    omega

theorem countPh_of_all (t : Phase) (l : List Phase)
    (h : ∀ p ∈ l, p = t) : countPh t l = l.length := by
  induction l with
  | nil => rfl
  | cons p ps ih =>
    have hp : p = t := h p (by simp)
    simp only [countPh, List.length_cons, hp,
      ih (fun q hq => h q (by simp [hq]))]
    simp
    omega

/-! ### The JSON header predicate is unsatisfiable -/

theorem prefixCheck_trans (p : List Char) : ∀ (q l : List Char),
    prefixCheck p l = true → prefixCheck q l = true →
    p.length ≤ q.length → prefixCheck p q = true := by
  induction p with
  | nil => intro q l _ _ _; rfl
  | cons a as ih =>
    intro q l hp hq hlen
    cases q with
    | nil => simp at hlen
    | cons b bs =>
      cases l with
      | nil => simp [prefixCheck] at hp
      | cons c cs =>
        simp only [prefixCheck, Bool.and_eq_true, decide_eq_true_eq] at hp hq ⊢
        obtain ⟨hac, hp2⟩ := hp
        obtain ⟨hbc, hq2⟩ := hq
        refine ⟨by rw [hac, hbc], ?_⟩
        exact ih bs cs hp2 hq2 (by simpa using hlen)

theorem not_both_json_prefixes (l : List Char)
    (h1 : prefixCheck ("application/json").data l = true)
    (h2 : prefixCheck ("application/dicom+json").data l = true) : False := by
  have h3 := prefixCheck_trans ("application/json").data
    ("application/dicom+json").data l h1 h2 (by decide)
  rw [show prefixCheck ("application/json").data
    ("application/dicom+json").data = false from by decide] at h3
  cases h3

theorem jsonHeaderPred_false (e : Header) : jsonHeaderPred e = false := by
  simp only [jsonHeaderPred, startsWith]
  cases h1 : prefixCheck ("application/json").data e.value.data with
  | false => simp
  | true =>
    cases h2 : prefixCheck ("application/dicom+json").data e.value.data with
    | false => simp
    | true => exact (not_both_json_prefixes e.value.data h1 h2).elim

/-! ### Claim theorems -/

/-- C1: for every non-empty homogeneous batch loaded through UrlsLoader with
no abort, the onloadend callback fires exactly once, at the moment the
load-end counter `#nLoadend` reaches 2*N: throughout the run the number of
emitted loadend events is 1 precisely when the counter passed 2*N, the
counter always equals the sum of the per-item contributions (one increment
when the fetch ends, one when the decode ends, with a non-success status
contributing its second increment via the error branch, as `contrib`
records), and once every item has reached both conclusions the counter is
2*N and exactly one loadend was emitted. -/
theorem urlsLoader_loadend_exactly_once
    (L : List LoaderSpec) (s0 : St) (d0 : String) (ds : List String)
    (opts : Option Options) (sInit s : St) (acts : List Act) (tr : List Ev)
    (hinit : loadUrls L s0 (some (d0 :: ds)) opts = .ok sInit)
    (hna : noAbort acts = true)
    (hrun : run sInit [] acts = some (s, tr)) :
    countEv .loadend tr = (if 2 * s.n ≤ s.nLoadend then 1 else 0) ∧
    s.nLoadend = contribSum s.phases ∧
    (allConcluded s.phases = true →
      s.nLoadend = 2 * s.n ∧ countEv .loadend tr = 1) := by
  have hinv := run_inv acts sInit [] s tr
    (inv_init L s0 d0 ds opts sInit hinit) hna hrun
  obtain ⟨hn, hlen, _, hsum, _, hend, _, _, _⟩ := hinv
  refine ⟨hend, hsum, ?_⟩
  intro hall
  have h2 := contribSum_concluded s.phases hall
  rw [hlen] at h2
  refine ⟨by omega, ?_⟩
  rw [hend, if_pos (by omega)]

/-- Witness for C1: a one-element batch whose fetch returns 200 and whose
decode succeeds fires onloadend exactly once. -/
theorem urlsLoader_loadend_exactly_once_witness :
    countEv .loadend [Ev.loaditem 0, Ev.load, Ev.loadend] = 1 :=
  ((urlsLoader_loadend_exactly_once [demoLoaderAll] freshSt "a" [] none
    { n := 1, nLoad := 0, nLoadend := 0, aborting := false
      phases := [Phase.sent], lastRun := 0, hasLoader := true
      loaderAborted := false }
    { n := 1, nLoad := 1, nLoadend := 2, aborting := false
      phases := [Phase.doneOk], lastRun := 0, hasLoader := true
      loaderAborted := false }
    [Act.fetchDone 0 200 "u" "OK", Act.decodeDone 0 true]
    [Ev.loaditem 0, Ev.load, Ev.loadend]
    rfl rfl rfl).2.2 rfl).2

/-- C2: for every non-empty batch with no abort, onload fires exactly once,
at the moment the decode-success counter `#nLoad` equals N, and it fires at
all if and only if every item's decode reached success; if any item's fetch
or decode errors, that item never reaches doneOk and onload never fires. -/
theorem urlsLoader_load_iff_all_decoded
    (L : List LoaderSpec) (s0 : St) (d0 : String) (ds : List String)
    (opts : Option Options) (sInit s : St) (acts : List Act) (tr : List Ev)
    (hinit : loadUrls L s0 (some (d0 :: ds)) opts = .ok sInit)
    (hna : noAbort acts = true)
    (hrun : run sInit [] acts = some (s, tr)) :
    countEv .load tr = (if s.n ≤ s.nLoad then 1 else 0) ∧
    s.nLoad = countPh .doneOk s.phases ∧
    (countEv .load tr = 1 ↔ ∀ p ∈ s.phases, p = .doneOk) := by
  have hinv := run_inv acts sInit [] s tr
    (inv_init L s0 d0 ds opts sInit hinit) hna hrun
  obtain ⟨hn, hlen, _, _, hload, _, hld, _, _⟩ := hinv
  refine ⟨hld, hload, ?_, ?_⟩
  · intro h1
    have hle := countPh_le_length .doneOk s.phases
    have hge : s.n ≤ s.nLoad := by
      by_contra hlt
      rw [hld, if_neg hlt] at h1
      cases h1
    exact countPh_eq_length .doneOk s.phases (by omega)
  · intro hall
    have hcnt := countPh_of_all .doneOk s.phases hall
    rw [hld, if_pos (by omega)]

/-- Witness for C2: in the same successful one-element run, onload fired
exactly once. -/
theorem urlsLoader_load_iff_all_decoded_witness :
    countEv .load [Ev.loaditem 0, Ev.load, Ev.loadend] = 1 :=
  (urlsLoader_load_iff_all_decoded [demoLoaderAll] freshSt "a" [] none
    { n := 1, nLoad := 0, nLoadend := 0, aborting := false
      phases := [Phase.sent], lastRun := 0, hasLoader := true
      loaderAborted := false }
    { n := 1, nLoad := 1, nLoadend := 2, aborting := false
      phases := [Phase.doneOk], lastRun := 0, hasLoader := true
      loaderAborted := false }
    [Act.fetchDone 0 200 "u" "OK", Act.decodeDone 0 true]
    [Ev.loaditem 0, Ev.load, Ev.loadend]
    rfl rfl rfl).2.2.mpr (by decide)

/-- C9: in the request onload handler, a completed fetch is treated as a
success exactly when its status is 200 or 0, in which case the payload is
handed to the decoder and no event fires; for any other status the handler
fires onerror with a message built from the GET url, the numeric status and
the status text, increments the load-end counter in the error branch, and
marks the request finished without invoking the decoder. -/
theorem status_check_success_iff (i status : Nat) (ru stx : String)
    (s : St) :
    ((status = 200 ∨ status = 0) →
      getLoadHandler i status ru stx s = (setPhase i .decoding s, [])) ∧
    (¬(status = 200 ∨ status = 0) →
      (getLoadHandler i status ru stx s).2 =
        Ev.error ("GET " ++ ru ++ " " ++ toString status ++
          " (" ++ stx ++ ")") ::
          (if s.nLoadend + 1 = 2 * s.n then [Ev.loadend] else []) ∧
      (getLoadHandler i status ru stx s).1.nLoadend = s.nLoadend + 1 ∧
      (getLoadHandler i status ru stx s).1.phases =
        s.phases.set i .doneStatusErr) := by
  constructor
  · intro hok
    exact getLoadHandler_ok i status ru stx s
      (fun hc => hok.elim hc.1 hc.2)
  · intro hbad
    push_neg at hbad
    rw [getLoadHandler_bad i status ru stx s hbad]
    exact ⟨rfl, rfl, rfl⟩

/-- Witness for C9: a 404 response fires onerror with the status in the
message and increments the load-end counter without starting a decode. -/
theorem status_check_success_iff_witness :
    (getLoadHandler 0 404 "u" "Not Found"
      { n := 1, nLoad := 0, nLoadend := 0, aborting := false
        phases := [Phase.sent], lastRun := 0, hasLoader := true
        loaderAborted := false }).2 =
      Ev.error "GET u 404 (Not Found)" :: [] :=
  ((status_check_success_iff 0 404 "u" "Not Found"
    { n := 1, nLoad := 0, nLoadend := 0, aborting := false
      phases := [Phase.sent], lastRun := 0, hasLoader := true
      loaderAborted := false }).2 (by omega)).1

/-- C10: whenever options.requestHeaders is defined,
JSONTextLoader.canLoadUrl returns false for every url: the header predicate
requires one value to start with both media types, which is impossible, so
the find yields nothing and the extension fallback is never consulted. -/
theorem jsonTextLoader_canLoadUrl_headers_false (url : String) (o : Options)
    (hs : List Header) (hreq : o.requestHeaders = some hs) :
    JSONTextLoader.canLoadUrl url (some o) = false := by
  simp only [JSONTextLoader.canLoadUrl, hreq]
  have hnone : hs.find? jsonHeaderPred = none := by
    rw [List.find?_eq_none]
    intro x _
    simp [jsonHeaderPred_false x]
  rw [hnone]
  rfl

/-- Witness for C10: even a json url with an Accept header advertising json
is rejected once requestHeaders is defined. -/
theorem jsonTextLoader_canLoadUrl_headers_false_witness :
    JSONTextLoader.canLoadUrl "data.json"
      (some { requestHeaders := some [⟨"Accept", "application/json"⟩] }) =
      false :=
  jsonTextLoader_canLoadUrl_headers_false "data.json" _ _ rfl

/-- C4: UrlsLoader.abort is idempotent (a second call returns the same state
and emits nothing), once the aborting flag is set no request ever moves from
unsent to sent under any further completions (the flag is checked before
every dispatch), every in-flight request is transport-aborted (it ends in
endedAbort and its onabort fires), requests in other phases are untouched by
the request loop, and the running decoder is aborted exactly when it reports
isLoading(). -/
theorem urlsLoader_abort_idempotent_blocks_dispatch :
    (∀ s : St, abortFun ((abortFun s).1) = ((abortFun s).1, [])) ∧
    (∀ (acts : List Act) (s : St) (tr : List Ev) (s' : St) (tr' : List Ev),
      s.aborting = true → run s tr acts = some (s', tr') →
      s'.aborting = true ∧
      (∀ i : Nat, s.phases[i]? = some .unsent →
        s'.phases[i]? = some .unsent)) ∧
    (∀ (s : St) (i : Nat), s.phases[i]? = some .sent →
      (abortFun s).1.phases[i]? = some .endedAbort ∧
      Ev.abortEvt i ∈ (abortFun s).2) ∧
    (∀ (s : St) (i : Nat) (p : Phase), s.phases[i]? = some p →
      p ≠ .sent → p ≠ .decoding → (abortFun s).1.phases[i]? = some p) ∧
    (∀ s : St, (abortFun s).1.loaderAborted =
      (s.loaderAborted || (s.hasLoader && isLoading s))) :=
  ⟨abortFun_idem,
   fun acts s tr s' tr' hab hrun => run_aborted acts s tr s' tr' hab hrun,
   fun s i h => ⟨abortFun_phases_sent s i h, abortFun_abortEvt s i h⟩,
   fun s i p h h1 h2 => abortFun_phases_other s i p h h1 h2,
   abortFun_loaderAborted⟩

/-- Witness for C4: on a state with one in-flight and one unsent request, a
second abort is a no-op and the in-flight request ends in endedAbort. -/
theorem urlsLoader_abort_idempotent_blocks_dispatch_witness :
    (abortFun ((abortFun demoAbortSt).1) = ((abortFun demoAbortSt).1, [])) ∧
    (abortFun demoAbortSt).1.phases[0]? = some Phase.endedAbort :=
  ⟨urlsLoader_abort_idempotent_blocks_dispatch.1 demoAbortSt,
   (urlsLoader_abort_idempotent_blocks_dispatch.2.2.1 demoAbortSt 0
     rfl).1⟩

/-- Counterexample for C6: calling abort from within the onloadstart
callback does not prevent the batch: `#storeInputData` resets the aborting
flag after onloadstart fired, so the one request of this batch is sent
anyway (the claim predicted zero fetch requests ever sent). -/
theorem abort_in_onloadstart_counterexample :
    load [demoLoaderAll] freshSt ["a"] none true DicomDirFetch.netErr =
      .ok ({ n := 1, nLoad := 0, nLoadend := 0, aborting := false
             phases := [Phase.sent], lastRun := 0, hasLoader := true
             loaderAborted := false }, [Ev.start ["a"]]) ∧
    countPh .sent [Phase.sent] = 1 := ⟨rfl, rfl⟩

/-- C6 amended: abort() called from within onloadstart on a fresh instance
has no effect on the new batch, because `#storeInputData` resets the
aborting flag before any request is created, so the load proceeds exactly as
without the abort; only once the flag is set after the input was stored does
it block every dispatch (no unsent request is ever sent from then on), and
UrlsLoader.abort still fires onabort for every operation cancelled in flight
and counts each cancelled fetch (plus the aborted decoder) toward the
load-end counter. -/
theorem abort_in_onloadstart_amended :
    (∀ (L : List LoaderSpec) (d0 : String) (ds : List String)
       (opts : Option Options) (dd : DicomDirFetch),
      ((d0 :: ds).length == 1 && isDicomDirUrl d0) = false →
      load L freshSt (d0 :: ds) opts true dd =
        load L freshSt (d0 :: ds) opts false dd) ∧
    (∀ (acts : List Act) (s : St) (tr : List Ev) (s' : St) (tr' : List Ev),
      s.aborting = true → run s tr acts = some (s', tr') →
      ∀ i : Nat, s.phases[i]? = some .unsent →
        s'.phases[i]? = some .unsent) ∧
    (∀ (s : St) (i : Nat), s.phases[i]? = some .sent →
      Ev.abortEvt i ∈ (abortFun s).2) ∧
    (∀ s : St, (abortFun s).1.nLoadend = s.nLoadend +
      countPh .sent s.phases +
      (if s.hasLoader && isLoading s then 1 else 0)) := by
  refine ⟨?_, ?_, ?_, abortFun_nLoadend⟩
  · intro L d0 ds opts dd hcond
    have habf : abortFun freshSt =
        ({ n := 0, nLoad := 0, nLoadend := 0, aborting := true, phases := []
           lastRun := 0, hasLoader := false, loaderAborted := false },
         []) := rfl
    simp only [load, List.getD_cons_zero]
    rw [hcond]
    simp only [habf]
    simp only [Bool.false_eq_true, if_false, if_true, List.append_nil]
    rw [loadUrls_state_irrel L
      { n := 0, nLoad := 0, nLoadend := 0, aborting := true, phases := []
        lastRun := 0, hasLoader := false, loaderAborted := false }
      freshSt d0 ds opts]
  · intro acts s tr s' tr' hab hrun
    exact (run_aborted acts s tr s' tr' hab hrun).2
  · intro s i h
    exact abortFun_abortEvt s i h

/-- Witness for C6 amended: on a fresh instance, a one-element batch loaded
with an abort inside onloadstart gives the same result as without it. -/
theorem abort_in_onloadstart_amended_witness :
    load [demoLoaderAll] freshSt ["a", "b"] none true DicomDirFetch.netErr =
      load [demoLoaderAll] freshSt ["a", "b"] none false
        DicomDirFetch.netErr :=
  abort_in_onloadstart_amended.1 [demoLoaderAll] "a" ["b"] none
    DicomDirFetch.netErr rfl

/-- Counterexample for C7: an empty (or undefined) resource list does not
raise a synchronous error on the direct-fetch path: `#loadUrls` returns
silently and the instance state is untouched. -/
theorem empty_input_counterexample :
    loadUrls [demoLoaderAll] freshSt (some []) none = .ok freshSt ∧
    loadUrls [demoLoaderAll] freshSt none none = .ok freshSt := ⟨rfl, rfl⟩

/-- C7 amended: on the direct-fetch path an undefined or empty resource list
makes `#loadUrls` return silently before any network activity — no
exception is raised, no state is changed and, through load, the only
emitted event is the initial onloadstart. -/
theorem empty_input_amended (L : List LoaderSpec) (s : St)
    (opts : Option Options) (dd : DicomDirFetch) :
    loadUrls L s none opts = .ok s ∧
    loadUrls L s (some []) opts = .ok s ∧
    load L s [] opts false dd = .ok (s, [Ev.start []]) :=
  ⟨rfl, rfl, rfl⟩

/-- Counterexample for C8: a heterogeneous batch is rejected while the
requests are being constructed, before any request is sent — at the throw
the stored request of item 0 is still unsent and none is in flight,
refuting the claim that the rejection happens mid-flight at dispatch time
rather than before any fetch is started. -/
theorem heterogeneous_batch_counterexample :
    loadUrls [demoLoaderA] freshSt (some ["a", "b"]) none =
      .error ("Input url of different type: b",
        { n := 2, nLoad := 0, nLoadend := 0, aborting := false
          phases := [Phase.unsent], lastRun := 0, hasLoader := true
          loaderAborted := false }) ∧
    countPh .sent [Phase.unsent] = 0 := ⟨rfl, rfl⟩

/-- C8 amended: when the loader selected from the first resource rejects a
later resource, `#loadUrls` raises the synchronous error with that url in
its message, fatal to the whole operation; the check runs per item in the
request-construction loop, so at the throw the requests built so far are
all unsent and no fetch has started — the batch is effectively validated
before any network activity. -/
theorem heterogeneous_batch_amended (L : List LoaderSpec) (s0 : St)
    (d0 : String) (ds good : List String) (bad : String)
    (rest : List String) (opts : Option Options) (loader : LoaderSpec)
    (hsplit : d0 :: ds = good ++ bad :: rest)
    (hfind : findLoader L d0 opts = some loader)
    (hgood : ∀ u ∈ good, loader.canLoadUrl u opts = true)
    (hbad : loader.canLoadUrl bad opts = false) :
    loadUrls L s0 (some (d0 :: ds)) opts =
      .error ("Input url of different type: " ++ bad,
        { n := (d0 :: ds).length, nLoad := 0, nLoadend := 0
          aborting := false
          phases := List.replicate good.length .unsent, lastRun := 0
          hasLoader := true, loaderAborted := false }) ∧
    good ≠ [] ∧
    countPh .sent (List.replicate good.length Phase.unsent) = 0 := by
  have hfind2 := hfind
  simp only [findLoader] at hfind2
  have hcan0 := List.find?_some hfind2
  simp only at hcan0
  refine ⟨?_, ?_, ?_⟩
  · simp only [loadUrls, hfind]
    rw [hsplit, buildRequestsAux_err_shape loader opts bad rest hbad
      good [] hgood]
    simp [hsplit]
  · intro hg
    subst hg
    simp only [List.nil_append] at hsplit
    have : d0 = bad := (List.cons.injEq _ _ _ _).mp hsplit |>.1
    rw [this, hbad] at hcan0
    cases hcan0
  · rw [countPh_replicate]
    simp

/-- Witness for C8 amended: the concrete heterogeneous batch of the
counterexample matches the amended description. -/
theorem heterogeneous_batch_amended_witness :
    loadUrls [demoLoaderA] freshSt (some ["a", "b"]) none =
      .error ("Input url of different type: b",
        { n := (["a", "b"] : List String).length, nLoad := 0, nLoadend := 0
          aborting := false
          phases := List.replicate (["a"] : List String).length .unsent
          lastRun := 0, hasLoader := true, loaderAborted := false }) :=
  (heterogeneous_batch_amended [demoLoaderA] freshSt "a" ["b"] ["a"] "b" []
    none demoLoaderA rfl rfl (by decide) (by decide)).1

/-- C3: with batchSize = k < N and no abort, exactly min(k, N) = k requests
are sent by the initial dispatch loop (indices 0..k-1, the rest unsent), at
most k requests are simultaneously in flight in every reachable state, and
each request loadend dispatches exactly the next not-yet-sent request in
ascending index order — the newly sent index is lastRunRequestIndex + 1, it
was the least unsent index, and once all are sent a completion dispatches
nothing new. -/
theorem urlsLoader_batch_window_bound
    (L : List LoaderSpec) (s0 : St) (d0 : String) (ds : List String)
    (o : Options) (k : Nat) (sInit s : St) (acts : List Act) (tr : List Ev)
    (hbs : o.batchSize = some k) (hk1 : 1 ≤ k)
    (hkN : k < (d0 :: ds).length)
    (hinit : loadUrls L s0 (some (d0 :: ds)) (some o) = .ok sInit)
    (hna : noAbort acts = true)
    (hrun : run sInit [] acts = some (s, tr)) :
    (∀ i : Nat, i < k → sInit.phases[i]? = some .sent) ∧
    (∀ i : Nat, k ≤ i → i < (d0 :: ds).length →
      sInit.phases[i]? = some .unsent) ∧
    countPh .sent sInit.phases = k ∧
    countPh .sent s.phases ≤ k ∧
    (∀ (i status : Nat) (ru stx : String) (s' : St) (δ : List Ev),
      stepA (.fetchDone i status ru stx) s = some (s', δ) →
      (s.lastRun + 1 < s.n →
        s'.lastRun = s.lastRun + 1 ∧
        s'.phases[s.lastRun + 1]? = some .sent ∧
        s.phases[s.lastRun + 1]? = some .unsent ∧
        (∀ j : Nat, j < s.lastRun + 1 → j < s.n →
          s.phases[j]? ≠ some .unsent)) ∧
      (¬ s.lastRun + 1 < s.n →
        s'.lastRun = s.lastRun ∧
        (∀ j : Nat, s'.phases[j]? = some .sent →
          s.phases[j]? = some .sent))) := by
  obtain ⟨loader, hfind, hall, ht⟩ :=
    loadUrls_ok_spec L s0 d0 ds (some o) sInit hinit
  have hcbs : computeBatchSize (d0 :: ds).length (some o) = k := by
    simp only [computeBatchSize, hbs]
    rw [if_pos (by simp)]
    omega
  rw [hcbs, dispatchLoop_spec (d0 :: ds).length k _ rfl rfl
    (by omega)] at ht
  have hlr : sInit.lastRun = k - 1 := by rw [ht]; simp; omega
  have hph : sInit.phases = List.replicate k Phase.sent ++
      List.replicate ((d0 :: ds).length - k) Phase.unsent := by rw [ht]
  have hninit : sInit.n = (d0 :: ds).length := by rw [ht]
  have c1 : ∀ i : Nat, i < k → sInit.phases[i]? = some .sent := by
    intro i hi
    rw [hph, getQ_rep_append, if_pos hi]
  have c2 : ∀ i : Nat, k ≤ i → i < (d0 :: ds).length →
      sInit.phases[i]? = some .unsent := by
    intro i hi1 hi2
    rw [hph, getQ_rep_append, if_neg (by omega), if_pos (by omega)]
  have c3 : countPh .sent sInit.phases = k := by
    rw [hph, countPh_append, countPh_replicate, countPh_replicate]
    simp
  have hinv0 : Inv sInit [] := inv_init L s0 d0 ds (some o) sInit hinit
  have hw0 : InvW k sInit := by
    refine ⟨by omega, ?_⟩
    intro i hi1 hi2
    rw [c1 i (by omega)]
    simp
  have hinv := run_inv acts sInit [] s tr hinv0 hna hrun
  have hw := invW_run k acts sInit [] s tr hinv0 hw0 hna hrun
  obtain ⟨hn, hlen, hab, _, _, _, _, hlast, hafter⟩ := hinv
  obtain ⟨hcnt, hwin⟩ := hw
  refine ⟨c1, c2, c3, hcnt, ?_⟩
  intro i status ru stx s' δ hstep
  rcases hv : s.phases[i]? with _ | p
  · simp only [stepA, hv] at hstep; cases hstep
  · cases p <;> simp only [stepA, hv] at hstep <;> cases hstep
    have hiN : i < s.n := hlen ▸ getQ_lt_length hv
    have hiLast : i ≤ s.lastRun := by
      by_contra hgt
      have h2 := hafter i (by omega) hiN
      rw [hv] at h2
      simp at h2
    have main : ∀ (w : St) (p2 : Phase), p2 ≠ .sent →
        w.phases = s.phases.set i p2 → w.lastRun = s.lastRun →
        w.aborting = s.aborting → w.n = s.n →
        (s.lastRun + 1 < s.n →
          (requestOnLoadEnd w).1.lastRun = s.lastRun + 1 ∧
          (requestOnLoadEnd w).1.phases[s.lastRun + 1]? = some .sent ∧
          s.phases[s.lastRun + 1]? = some .unsent ∧
          (∀ j : Nat, j < s.lastRun + 1 → j < s.n →
            s.phases[j]? ≠ some .unsent)) ∧
        (¬ s.lastRun + 1 < s.n →
          (requestOnLoadEnd w).1.lastRun = s.lastRun ∧
          (∀ j : Nat, (requestOnLoadEnd w).1.phases[j]? = some .sent →
            s.phases[j]? = some .sent)) := by
      intro w p2 hp2 hwph hwlr hwab hwn
      constructor
      · intro hdisp
        rw [requestOnLoadEnd_dispatch _
          (by rw [hwlr, hwph]; simp [List.length_set, hlen]; omega)
          (by rw [hwab, hab])]
        refine ⟨by simp [hwlr], ?_, ?_, ?_⟩
        · show (w.phases.set (w.lastRun + 1) .sent)[s.lastRun + 1]? = _
          rw [hwlr]
          rw [getQ_set_eq _ _ _
            (by rw [hwph]; simp [List.length_set, hlen]; omega)]
        · exact hafter _ (by omega) (by omega)
        · intro j hj1 hj2
          exact hwin j (by omega) hj2
      · intro hdisp
        rw [requestOnLoadEnd_stay _
          (by rw [hwlr, hwph, hwab]
              simp [List.length_set, hlen, hab]
              omega)]
        refine ⟨by simp [hwlr], ?_⟩
        intro j hj
        simp only [hwph] at hj
        by_cases hji : j = i
        · subst hji
          rw [getQ_set_eq _ _ _ (by rw [hlen]; omega)] at hj
          exact absurd (Option.some.inj hj) hp2
        · rw [getQ_set_ne _ _ _ _ (by omega)] at hj
          exact hj
    by_cases hbad : status ≠ 200 ∧ status ≠ 0
    · rw [getLoadHandler_bad i status ru stx s hbad]
      exact main _ .doneStatusErr (by simp) rfl rfl rfl rfl
    · rw [getLoadHandler_ok i status ru stx s hbad]
      exact main _ .decoding (by simp) rfl rfl rfl rfl

/-- Witness for C3: a three-element batch with batchSize 2 sends exactly the
first two requests. -/
theorem urlsLoader_batch_window_bound_witness :
    countPh .sent [Phase.sent, Phase.sent, Phase.unsent] = 2 :=
  (urlsLoader_batch_window_bound [demoLoaderAll] freshSt "a" ["b", "c"]
    { batchSize := some 2 } 2
    { n := 3, nLoad := 0, nLoadend := 0, aborting := false
      phases := [Phase.sent, Phase.sent, Phase.unsent], lastRun := 1
      hasLoader := true, loaderAborted := false }
    { n := 3, nLoad := 0, nLoadend := 0, aborting := false
      phases := [Phase.sent, Phase.sent, Phase.unsent], lastRun := 1
      hasLoader := true, loaderAborted := false }
    [] [] rfl (by omega) (by decide) rfl rfl rfl).2.2.1

/-- C5: a batch consisting of exactly one element matching the DICOMDIR
naming convention — and only such a batch — skips the direct-fetch path;
when the manifest fetch succeeds (status 200 or 0) the loader expands it to
the first listed file group qualified against the manifest root path and
re-enters the url-loading path with the expanded list and the same options,
so that, apart from the payload of the initial onloadstart event, the load
produces exactly the same outcome and event sequence as calling load
directly with the expanded, base-qualified resource list — including all
later asynchronous events. -/
theorem urlsLoader_dicomdir_expansion_refines
    (L : List LoaderSpec) (s : St) (url : String) (opts : Option Options)
    (status : Nat) (ru stx : String) (resp : ManifestContent)
    (dd2 : DicomDirFetch) (fullUrls : List String)
    (hd : isDicomDirUrl url = true)
    (hok : status = 200 ∨ status = 0)
    (hfull : fullUrls = (((getFileListFromDicomDir resp).getD 0 []).getD 0
      []).map (fun u => getRootPath url ++ "/" ++ u))
    (hnotdd : (fullUrls.length == 1 &&
      isDicomDirUrl (fullUrls.getD 0 "")) = false) :
    (load L s [url] opts false (.done status ru stx resp) =
      match loadUrls L s (some fullUrls) opts with
      | .ok t => .ok (t, [Ev.start [url]])
      | .error e => .error e) ∧
    (∀ (data : List String) (dd3 : DicomDirFetch),
      (data.length == 1 && isDicomDirUrl (data.getD 0 "")) = false →
      load L s data opts false dd3 =
        match loadUrls L s (some data) opts with
        | .ok t => .ok (t, [Ev.start data])
        | .error e => .error e) ∧
    ((load L s [url] opts false (.done status ru stx resp)).map
        (fun p => (p.1, p.2.drop 1)) =
      (load L s fullUrls opts false dd2).map
        (fun p => (p.1, p.2.drop 1))) ∧
    (∀ (acts : List Act) (tL tR : St) (trL trR : List Ev),
      load L s [url] opts false (.done status ru stx resp) =
        .ok (tL, trL) →
      load L s fullUrls opts false dd2 = .ok (tR, trR) →
      (run tL trL acts).map (fun p => (p.1, p.2.drop 1)) =
        (run tR trR acts).map (fun p => (p.1, p.2.drop 1))) := by
  have hB : ∀ (data : List String) (dd3 : DicomDirFetch),
      (data.length == 1 && isDicomDirUrl (data.getD 0 "")) = false →
      load L s data opts false dd3 =
        match loadUrls L s (some data) opts with
        | .ok t => .ok (t, [Ev.start data])
        | .error e => .error e := by
    intro data dd3 hnd
    simp only [load]
    rw [hnd]
    simp only [Bool.false_eq_true, if_false]
  have hA : load L s [url] opts false (.done status ru stx resp) =
      match loadUrls L s (some fullUrls) opts with
      | .ok t => .ok (t, [Ev.start [url]])
      | .error e => .error e := by
    simp only [load, List.getD_cons_zero, List.length_cons,
      List.length_nil]
    rw [show ((0 + 1 : Nat) == 1 && isDicomDirUrl url) = true by
      simp [hd]]
    simp only [if_true, loadDicomDir]
    rw [if_neg (fun hc => hok.elim hc.1 hc.2)]
    rw [← hfull]
    simp only [Bool.false_eq_true, if_false]
    cases loadUrls L s (some fullUrls) opts with
    | ok t => rfl
    | error e => rfl
  refine ⟨hA, hB, ?_, ?_⟩
  · rw [hA, hB fullUrls dd2 hnotdd]
    cases loadUrls L s (some fullUrls) opts with
    | ok t => rfl
    | error e => rfl
  · intro acts tL tR trL trR hL hR
    rw [hA] at hL
    rw [hB fullUrls dd2 hnotdd] at hR
    cases h : loadUrls L s (some fullUrls) opts with
    | error e => rw [h] at hL; cases hL
    | ok t =>
      rw [h] at hL hR
      injection hL with hL2
      injection hR with hR2
      injection hL2 with ha1 ha2
      injection hR2 with hb1 hb2
      subst ha1
      subst ha2
      subst hb1
      subst hb2
      rw [run_trace_shift acts t [Ev.start [url]],
        run_trace_shift acts t [Ev.start fullUrls]]
      cases run t [] acts with
      | none => rfl
      | some q => simp

/-- Witness for C5: the single-element batch ["DICOMDIR"] whose manifest
expands to ["a", "b"] takes the manifest path and reduces to the direct
load of the expanded urls. -/
theorem urlsLoader_dicomdir_expansion_refines_witness :
    (load [demoLoaderAll] freshSt ["DICOMDIR"] none false
        (.done 200 "u" "OK" [[["a", "b"]]])).map
      (fun p => (p.1, p.2.drop 1)) =
    (load [demoLoaderAll] freshSt ["/a", "/b"] none false
        DicomDirFetch.netErr).map (fun p => (p.1, p.2.drop 1)) :=
  (urlsLoader_dicomdir_expansion_refines [demoLoaderAll] freshSt "DICOMDIR"
    none 200 "u" "OK" [[["a", "b"]]] DicomDirFetch.netErr ["/a", "/b"]
    (by decide) (Or.inl rfl) (by rfl) (by decide)).2.2.1

end Dwv
